import Mathlib

/-!
# Verification of the vscode-tikz render scheduling and caching core

A shallow embedding, in Lean 4, of the core of the `vscode-tikz` extension:

* `src/utils/preprocessor.ts` — `preprocessSource`;
* `src/core/CacheEntry.ts` and `src/core/CacheManager.ts` — the persistent
  cache over VS Code's `Memento` key/value store;
* `PreviewManager` (render orchestrator, render chain, TeX error
  extraction, pgfplots compat downgrade);
* `src/core/DocumentParser.ts` — the fenced-block scanner.

Strings manipulated character by character are modelled as `List Char`
(a JS string is a sequence of code units; none of the sources involved
use astral characters).  Opaque payloads (SVG text, hashes used only as
keys) stay `String`.  JS `Promise` interleaving is modelled by explicit
schedulers: a choice list drives a step function, and theorems quantify
over all choice lists.
-/

set_option maxHeartbeats 1000000

namespace TikzSpec

/-! ## JS string primitives

`jsWs` is the character class of JavaScript `\s` (the `WhiteSpace` and
`LineTerminator` productions), which is also the set removed by
`String.prototype.trim`. -/

def jsWs (c : Char) : Bool :=
  c = ' ' || c = '\t' || c = '\n' || c = '\r' || c = '\x0b' || c = '\x0c' ||
  c = '\u00A0' || c = '﻿' || c = ' ' ||
  (decide (0x2000 ≤ c.toNat) && decide (c.toNat ≤ 0x200A)) ||
  c = ' ' || c = ' ' || c = ' ' || c = ' ' || c = '　'

/-- JS `String.prototype.trim`: drop `jsWs` characters from both ends. -/
def trimChars (l : List Char) : List Char :=
  ((l.dropWhile jsWs).reverse.dropWhile jsWs).reverse

/-- JS `source.split('\n')`: split on every `'\n'` (the empty string
splits to `[""]`). -/
def splitLines : List Char → List (List Char)
  | [] => [[]]
  | c :: cs =>
    match splitLines cs with
    | [] => [[]]
    | l :: ls => if c = '\n' then [] :: l :: ls else (c :: l) :: ls

/-- JS `lines.join('\n')`. -/
def joinLines : List (List Char) → List Char
  | [] => []
  | [l] => l
  | l :: ls => l ++ '\n' :: joinLines ls

/-! ## `src/utils/preprocessor.ts` -/

/-- `source.replace(/ /g, ' ')` — replace every non-breaking space
by an ordinary space (line 1 of `preprocessSource`). -/
def replaceNbsp (l : List Char) : List Char :=
  l.map fun c => if c = '\u00A0' then ' ' else c

/-- `preprocessSource` from `src/utils/preprocessor.ts`:
replace NBSP by space, split into lines, trim each line, drop empty
lines, join back with `'\n'`. -/
def preprocessSource (s : List Char) : List Char :=
  joinLines ((((splitLines (replaceNbsp s)).map trimChars).filter
    fun line => decide (0 < line.length)))

/-! ### Auxiliary lemmas about the JS string primitives -/

theorem dropWhile_dropWhile (p : Char → Bool) (l : List Char) :
    (l.dropWhile p).dropWhile p = l.dropWhile p := by
  induction l with
  | nil => rfl
  | cons c cs ih =>
    by_cases h : p c
    · simp [List.dropWhile, h, ih]
    · simp [List.dropWhile, h]

theorem head_not_of_dropWhile {p : Char → Bool} {l t : List Char} {c : Char}
    (h : l.dropWhile p = c :: t) : p c = false := by
  induction l with
  | nil => simp [List.dropWhile] at h
  | cons a as ih =>
    cases hpa : p a with
    | true =>
      rw [show (a :: as).dropWhile p = as.dropWhile p by
        simp [List.dropWhile, hpa]] at h
      exact ih h
    | false =>
      rw [show (a :: as).dropWhile p = a :: as by
        simp [List.dropWhile, hpa]] at h
      injection h with h1 _
      rw [← h1]
      exact hpa

theorem exists_prefix_dropWhile (p : Char → Bool) (l : List Char) :
    ∃ pre, l = pre ++ l.dropWhile p := by
  induction l with
  | nil => exact ⟨[], rfl⟩
  | cons c cs ih =>
    by_cases h : p c
    · obtain ⟨pre, hpre⟩ := ih
      exact ⟨c :: pre, by simpa [List.dropWhile, h] using congrArg (c :: ·) hpre⟩
    · exact ⟨[], by simp [List.dropWhile, h]⟩

theorem dropWhile_eq_self_of_head {p : Char → Bool} {l : List Char}
    (h : ∀ c t, l = c :: t → p c = false) : l.dropWhile p = l := by
  cases l with
  | nil => rfl
  | cons c cs => simp [List.dropWhile, h c cs rfl]

theorem trimChars_head_not {l t : List Char} {c : Char}
    (h : trimChars l = c :: t) : jsWs c = false := by
  unfold trimChars at h
  have hz : (l.dropWhile jsWs).reverse.dropWhile jsWs = t.reverse ++ [c] := by
    have := congrArg List.reverse h
    simpa using this
  obtain ⟨pre, hpre⟩ := exists_prefix_dropWhile jsWs (l.dropWhile jsWs).reverse
  rw [hz] at hpre
  have hl : l.dropWhile jsWs = c :: (pre ++ t.reverse).reverse := by
    have := congrArg List.reverse hpre
    simpa using this
  exact head_not_of_dropWhile hl

theorem trimChars_idem (l : List Char) : trimChars (trimChars l) = trimChars l := by
  have h1 : (trimChars l).dropWhile jsWs = trimChars l := by
    apply dropWhile_eq_self_of_head
    intro c t hct
    simp [trimChars_head_not hct]
  have h2 : (trimChars l).reverse.dropWhile jsWs = (trimChars l).reverse := by
    unfold trimChars
    rw [List.reverse_reverse]
    exact dropWhile_dropWhile jsWs _
  unfold trimChars
  unfold trimChars at h1 h2
  rw [h1, h2, List.reverse_reverse]

theorem mem_of_mem_dropWhile {p : Char → Bool} {l : List Char} {c : Char}
    (h : c ∈ l.dropWhile p) : c ∈ l := by
  obtain ⟨pre, hpre⟩ := exists_prefix_dropWhile p l
  rw [hpre]
  exact List.mem_append_right pre h

theorem mem_of_mem_trimChars {l : List Char} {c : Char}
    (h : c ∈ trimChars l) : c ∈ l := by
  unfold trimChars at h
  rw [List.mem_reverse] at h
  have h2 := mem_of_mem_dropWhile h
  rw [List.mem_reverse] at h2
  exact mem_of_mem_dropWhile h2

theorem splitLines_ne_nil (s : List Char) : splitLines s ≠ [] := by
  cases s with
  | nil => simp [splitLines]
  | cons c cs =>
    simp only [splitLines]
    cases h : splitLines cs with
    | nil => simp
    | cons l ls =>
      by_cases hc : c = '\n' <;> simp [hc]

theorem mem_splitLines_subset {s : List Char} {l : List Char}
    (hl : l ∈ splitLines s) {c : Char} (hc : c ∈ l) : c ∈ s := by
  induction s generalizing l with
  | nil =>
    simp [splitLines] at hl
    subst hl
    simp at hc
  | cons a as ih =>
    simp only [splitLines] at hl
    cases h : splitLines as with
    | nil => exact absurd h (splitLines_ne_nil as)
    | cons m ms =>
      rw [h] at hl
      have hm : m ∈ splitLines as := by rw [h]; exact List.mem_cons_self m ms
      by_cases ha : a = '\n'
      · simp only [ha, if_pos rfl] at hl
        rcases List.mem_cons.mp hl with hl | hl
        · subst hl; simp at hc
        · rcases List.mem_cons.mp hl with hl | hl
          · subst hl
            exact List.mem_cons_of_mem a (ih hm hc)
          · have hlm : l ∈ splitLines as := by
              rw [h]; exact List.mem_cons_of_mem m hl
            exact List.mem_cons_of_mem a (ih hlm hc)
      · simp only [if_neg ha] at hl
        rcases List.mem_cons.mp hl with hl | hl
        · subst hl
          rcases List.mem_cons.mp hc with hc | hc
          · rw [hc]; exact List.mem_cons_self a as
          · exact List.mem_cons_of_mem a (ih hm hc)
        · have hlm : l ∈ splitLines as := by
            rw [h]; exact List.mem_cons_of_mem m hl
          exact List.mem_cons_of_mem a (ih hlm hc)

theorem no_newline_mem_splitLines {s : List Char} {l : List Char}
    (hl : l ∈ splitLines s) : '\n' ∉ l := by
  induction s generalizing l with
  | nil =>
    simp [splitLines] at hl
    subst hl; simp
  | cons a as ih =>
    simp only [splitLines] at hl
    cases h : splitLines as with
    | nil => exact absurd h (splitLines_ne_nil as)
    | cons m ms =>
      rw [h] at hl
      have hm : m ∈ splitLines as := by rw [h]; exact List.mem_cons_self m ms
      by_cases ha : a = '\n'
      · simp only [ha, if_pos rfl] at hl
        rcases List.mem_cons.mp hl with hl | hl
        · subst hl; simp
        · rcases List.mem_cons.mp hl with hl | hl
          · subst hl; exact ih hm
          · exact ih (by rw [h]; exact List.mem_cons_of_mem m hl)
      · simp only [if_neg ha] at hl
        rcases List.mem_cons.mp hl with hl | hl
        · subst hl
          intro hmem
          rcases List.mem_cons.mp hmem with hmem | hmem
          · exact ha hmem.symm
          · exact ih hm hmem
        · exact ih (by rw [h]; exact List.mem_cons_of_mem m hl)

theorem splitLines_append_no_newline {l : List Char} (hnl : '\n' ∉ l)
    {rest : List Char} {r : List Char} {rs : List (List Char)}
    (h : splitLines rest = r :: rs) :
    splitLines (l ++ rest) = (l ++ r) :: rs := by
  induction l with
  | nil => simpa using h
  | cons c cs ih =>
    have hc : c ≠ '\n' := fun hh => hnl (hh ▸ List.mem_cons_self c cs)
    have hcs : '\n' ∉ cs := fun hh => hnl (List.mem_cons_of_mem c hh)
    have hrec := ih hcs
    rw [List.cons_append]
    simp only [splitLines, hrec]
    simp [hc]

theorem splitLines_joinLines {ls : List (List Char)} (hne : ls ≠ [])
    (hnl : ∀ l ∈ ls, '\n' ∉ l) : splitLines (joinLines ls) = ls := by
  induction ls with
  | nil => exact absurd rfl hne
  | cons l ls ih =>
    cases ls with
    | nil =>
      show splitLines (joinLines [l]) = [l]
      have hl : splitLines (l ++ []) = (l ++ []) :: [] :=
        splitLines_append_no_newline (hnl l (List.mem_cons_self l [])) rfl
      simpa [joinLines] using hl
    | cons m ms =>
      have hrec : splitLines (joinLines (m :: ms)) = m :: ms :=
        ih (by simp) (fun x hx => hnl x (List.mem_cons_of_mem l hx))
      show splitLines (l ++ '\n' :: joinLines (m :: ms)) = l :: m :: ms
      have hmid : splitLines ('\n' :: joinLines (m :: ms)) = [] :: m :: ms := by
        simp only [splitLines, hrec]
        simp
      have := splitLines_append_no_newline (hnl l (List.mem_cons_self l _)) hmid
      simpa using this

theorem mem_joinLines {ls : List (List Char)} {c : Char}
    (h : c ∈ joinLines ls) : c = '\n' ∨ ∃ l ∈ ls, c ∈ l := by
  induction ls with
  | nil => simp [joinLines] at h
  | cons l ls ih =>
    cases ls with
    | nil =>
      simp only [joinLines] at h
      exact Or.inr ⟨l, List.mem_cons_self l [], h⟩
    | cons m ms =>
      simp only [joinLines] at h
      rcases List.mem_append.mp h with h | h
      · exact Or.inr ⟨l, List.mem_cons_self l _, h⟩
      · rcases List.mem_cons.mp h with h | h
        · exact Or.inl h
        · rcases ih h with h | ⟨x, hx, hcx⟩
          · exact Or.inl h
          · exact Or.inr ⟨x, List.mem_cons_of_mem l hx, hcx⟩

theorem replaceNbsp_no_nbsp (l : List Char) : '\u00A0' ∉ replaceNbsp l := by
  intro h
  unfold replaceNbsp at h
  rw [List.mem_map] at h
  obtain ⟨c, _, hc⟩ := h
  by_cases h0 : c = '\u00A0' <;> simp [h0] at hc

theorem list_map_self {A : Type} (f : A -> A) (l : List A)
    (h : forall x, x ∈ l -> f x = x) : l.map f = l := by
  induction l with
  | nil => rfl
  | cons a as ih =>
    rw [List.map_cons, h a (List.mem_cons_self a as),
      ih fun x hx => h x (List.mem_cons_of_mem a hx)]

theorem replaceNbsp_eq_self {l : List Char} (h : '\u00A0' ∉ l) :
    replaceNbsp l = l := by
  unfold replaceNbsp
  apply list_map_self
  intro c hc
  have : c ≠ '\u00A0' := fun he => h (he ▸ hc)
  simp [this]

/-- The normal form produced by `preprocessSource`: a join of lines that
are each nonempty, trim-fixed, and free of `'\n'` and NBSP. -/
def NormalLines (ls : List (List Char)) : Prop :=
  ∀ l ∈ ls, l ≠ [] ∧ trimChars l = l ∧ '\n' ∉ l ∧ '\u00A0' ∉ l

theorem preprocessSource_normal (s : List Char) :
    ∃ ls, preprocessSource s = joinLines ls ∧ NormalLines ls := by
  refine ⟨(((splitLines (replaceNbsp s)).map trimChars).filter
    fun line => decide (0 < line.length)), rfl, ?_⟩
  intro l hl
  rw [List.mem_filter] at hl
  obtain ⟨hmem, hlen⟩ := hl
  rw [List.mem_map] at hmem
  obtain ⟨x, hx, hxl⟩ := hmem
  have hne : l ≠ [] := by
    intro h
    rw [h] at hlen
    simp at hlen
  refine ⟨hne, by rw [← hxl]; exact trimChars_idem x, ?_, ?_⟩
  · intro hc
    have := mem_of_mem_trimChars (hxl ▸ hc)
    exact no_newline_mem_splitLines hx this
  · intro hc
    have h1 := mem_of_mem_trimChars (hxl ▸ hc)
    have := mem_splitLines_subset hx h1
    exact replaceNbsp_no_nbsp s this

theorem preprocessSource_of_normal {ls : List (List Char)} (h : NormalLines ls) :
    preprocessSource (joinLines ls) = joinLines ls := by
  cases hls : ls with
  | nil => simp [hls, joinLines, preprocessSource, replaceNbsp, splitLines, trimChars]
  | cons l rest =>
    rw [← hls]
    have hnb : '\u00A0' ∉ joinLines ls := by
      intro hc
      rcases mem_joinLines hc with hc | ⟨x, hx, hcx⟩
      · exact absurd hc (by decide)
      · exact (h x hx).2.2.2 hcx
    have hrules : ∀ x ∈ ls, '\n' ∉ x := fun x hx => (h x hx).2.2.1
    unfold preprocessSource
    rw [replaceNbsp_eq_self hnb,
        splitLines_joinLines (by rw [hls]; simp) hrules]
    have hmap : ls.map trimChars = ls :=
      list_map_self trimChars ls fun x hx => (h x hx).2.1
    rw [hmap]
    have hfilter : (ls.filter fun line => decide (0 < line.length)) = ls := by
      apply List.filter_eq_self.mpr
      intro x hx
      have := (h x hx).1
      cases x with
      | nil => exact absurd rfl this
      | cons a as => simp
    rw [hfilter]

/-- **C10.** `preprocessSource` is idempotent, its output contains no
non-breaking space (U+00A0), and the output is a join of lines each of
which is nonempty (no empty lines) and fixed by trimming (no leading or
trailing whitespace on any line). -/
theorem preprocessSource_idem_and_normalized (s : List Char) :
    preprocessSource (preprocessSource s) = preprocessSource s ∧
    '\u00A0' ∉ preprocessSource s ∧
    ∃ ls, preprocessSource s = joinLines ls ∧
      ∀ l ∈ ls, l ≠ [] ∧ trimChars l = l ∧ '\n' ∉ l := by
  obtain ⟨ls, hjoin, hnorm⟩ := preprocessSource_normal s
  refine ⟨by rw [hjoin]; exact preprocessSource_of_normal hnorm, ?_, ls, hjoin,
    fun l hl => ⟨(hnorm l hl).1, (hnorm l hl).2.1, (hnorm l hl).2.2.1⟩⟩
  rw [hjoin]
  intro hc
  rcases mem_joinLines hc with hc | ⟨x, hx, hcx⟩
  · exact absurd hc (by decide)
  · exact (hnorm x hx).2.2.2 hcx

/-! ## `src/core/CacheEntry.ts`

`timestamp` is `createdAt` in the spec's data model; its constructor
default `Date.now()` is passed explicitly by callers of the model. -/

structure CacheEntry where
  hash : String
  svg : String
  timestamp : Nat
  accessCount : Nat
deriving DecidableEq, Repr

/-- `CacheEntry.touch`: increments the access count. -/
def CacheEntry.touch (e : CacheEntry) : CacheEntry :=
  { e with accessCount := e.accessCount + 1 }

/-! ## VS Code `Memento` (`globalState`)

`update(key, undefined)` deletes the key; otherwise the value is stored
under the key.  Values stored by `CacheManager` are either a cache-entry
record or the index array. -/

inductive StoredValue
  | entry (e : CacheEntry)
  | index (l : List String)
deriving DecidableEq, Repr

abbrev Memento : Type := List (String × StoredValue)

def mget : Memento → String → Option StoredValue
  | ([] : List (String × StoredValue)), _ => none
  | ((k, v) :: m : List (String × StoredValue)), key =>
      if k = key then some v else mget m key

def eraseKey (k : String) : List (String × StoredValue) → List (String × StoredValue)
  | [] => []
  | (k1, v) :: m => if k1 = k then eraseKey k m else (k1, v) :: eraseKey k m

def mupdate (m : Memento) (k : String) (v : Option StoredValue) : Memento :=
  match v with
  | none => eraseKey k m
  | some x => (k, x) :: eraseKey k m

/-! ## `src/core/CacheManager.ts` -/

def CACHE_KEY_PREFIX : String := "tikzjax.cache."

def CACHE_INDEX_KEY : String := "tikzjax.cache.index"

/-- `CacheManager.getCacheKey`. -/
def getCacheKey (hash : String) : String := CACHE_KEY_PREFIX ++ hash

/-- `CacheManager.getIndex`: the stored index array, or `[]`.  (Because
`getCacheKey "index" = CACHE_INDEX_KEY`, a hash equal to the literal
string `"index"` would make the entry record and the index array share a
key; all cache theorems therefore carry the side condition
`hash ≠ "index"`, which every real fingerprint — a SHA-256 hex digest —
satisfies.) -/
def getIndex (m : Memento) : List String :=
  match mget m CACHE_INDEX_KEY with
  | some (.index l) => l
  | _ => []

/-- `CacheManager.addToIndex`. -/
def addToIndex (m : Memento) (hash : String) : Memento :=
  let index := getIndex m
  if hash ∈ index then m
  else mupdate m CACHE_INDEX_KEY (some (.index (index ++ [hash])))

/-- `CacheManager.removeFromIndex`. -/
def removeFromIndex (m : Memento) (hash : String) : Memento :=
  let index := getIndex m
  mupdate m CACHE_INDEX_KEY
    (some (.index (index.filter fun h => decide (h ≠ hash))))

/-- `CacheManager.get`: on hit, touch the entry, persist the updated
access count, and return the touched entry. -/
def cacheGet (m : Memento) (hash : String) : Option CacheEntry × Memento :=
  match mget m (getCacheKey hash) with
  | some (.entry d) =>
      let e := d.touch
      (some e, mupdate m (getCacheKey hash) (some (.entry e)))
  | _ => (none, m)

/-- `CacheManager.set`: store the entry record, then add the hash to the
index. -/
def cacheSet (m : Memento) (hash : String) (diagram : CacheEntry) : Memento :=
  addToIndex (mupdate m (getCacheKey hash) (some (.entry diagram))) hash

/-- `CacheManager.invalidate`. -/
def cacheInvalidate (m : Memento) (hash : String) : Memento :=
  removeFromIndex (mupdate m (getCacheKey hash) none) hash

/-- `CacheManager.clear`: delete every entry reachable from the index,
then delete the index key. -/
def cacheClear (m : Memento) : Memento :=
  let index := getIndex m
  mupdate (index.foldl (fun acc h => mupdate acc (getCacheKey h) none) m)
    CACHE_INDEX_KEY none

structure CacheStats where
  entryCount : Nat
  totalSize : Nat
deriving DecidableEq, Repr

/-- `CacheManager.getStats`: `entryCount` is the index length;
`totalSize` sums `svg.length + 100` over entries found by `get` (which
also touches them, faithfully to the source). -/
def getStats (m : Memento) : CacheStats × Memento :=
  let index := getIndex m
  let sizeAndStore := index.foldl (fun (acc : Nat × Memento) h =>
    match cacheGet acc.2 h with
    | (some entry, m2) => (acc.1 + entry.svg.length + 100, m2)
    | (none, m2) => (acc.1, m2)) (0, m)
  (⟨index.length, sizeAndStore.1⟩, sizeAndStore.2)

/-! ### Key-space facts -/

theorem getCacheKey_inj {a b : String} (h : getCacheKey a = getCacheKey b) :
    a = b := by
  unfold getCacheKey at h
  have hd : CACHE_KEY_PREFIX.data ++ a.data = CACHE_KEY_PREFIX.data ++ b.data :=
    congrArg String.data h
  exact String.ext (List.append_cancel_left hd)

theorem indexKey_eq : CACHE_INDEX_KEY = getCacheKey "index" := by decide

theorem getCacheKey_ne_indexKey {h : String} (hne : h ≠ "index") :
    getCacheKey h ≠ CACHE_INDEX_KEY := by
  rw [indexKey_eq]
  intro he
  exact hne (getCacheKey_inj he)

/-! ### `mget` / `mupdate` lemmas -/

theorem mget_eraseKey (m : Memento) (k key : String) :
    mget (eraseKey k m) key = if key = k then none else mget m key := by
  induction m with
  | nil =>
    show mget ([] : Memento) key = if key = k then none else mget ([] : Memento) key
    by_cases h : key = k <;> simp [mget, h]
  | cons p m ih =>
    obtain ⟨k1, v1⟩ := p
    show mget (if k1 = k then eraseKey k m else (k1, v1) :: eraseKey k m) key = _
    by_cases h1 : k1 = k
    · rw [if_pos h1, ih]
      by_cases h2 : key = k
      · simp [h2]
      · have : k1 ≠ key := fun he => h2 (he ▸ h1)
        simp [h2, mget, this]
    · rw [if_neg h1]
      by_cases h2 : k1 = key
      · have : ¬ key = k := fun he => h1 (h2.trans he)
        simp [mget, h2, this]
      · simp [mget, h2, ih]

theorem mget_mupdate_self (m : Memento) (k : String) (v : Option StoredValue) :
    mget (mupdate m k v) k = v := by
  cases v with
  | none => simp [mupdate, mget_eraseKey]
  | some x => simp [mupdate, mget]

theorem mget_mupdate_ne (m : Memento) (k key : String)
    (v : Option StoredValue) (h : key ≠ k) :
    mget (mupdate m k v) key = mget m key := by
  cases v with
  | none => simp [mupdate, mget_eraseKey, h]
  | some x => simp [mupdate, mget, Ne.symm h, mget_eraseKey, h]

theorem getIndex_mupdate_entry (m : Memento) (h : String) (hne : h ≠ "index")
    (v : Option StoredValue) :
    getIndex (mupdate m (getCacheKey h) v) = getIndex m := by
  unfold getIndex
  rw [mget_mupdate_ne m (getCacheKey h) CACHE_INDEX_KEY v
    (Ne.symm (getCacheKey_ne_indexKey hne))]

theorem mget_addToIndex_entry (m : Memento) (h h2 : String)
    (hne : h2 ≠ "index") :
    mget (addToIndex m h) (getCacheKey h2) = mget m (getCacheKey h2) := by
  unfold addToIndex
  by_cases hmem : h ∈ getIndex m
  · simp [hmem]
  · simp only [hmem, if_false]
    exact mget_mupdate_ne _ _ _ _ (getCacheKey_ne_indexKey hne)

/-! ### C4 -/

/-- **C4.** After `set(h, e)`, `get(h)` returns `e` with `accessCount`
incremented by exactly 1, the incremented count is persisted to the
store before `get` returns, and the returned `artifact` (`svg`) is the
raw stored SVG text.  (`h ≠ "index"` keeps the entry key out of the
index key's slot, see `getIndex`.) -/
theorem cache_set_get_roundtrip (m : Memento) (h : String) (e : CacheEntry)
    (hne : h ≠ "index") :
    (cacheGet (cacheSet m h e) h).1 =
      some { e with accessCount := e.accessCount + 1 } ∧
    mget (cacheGet (cacheSet m h e) h).2 (getCacheKey h) =
      some (.entry { e with accessCount := e.accessCount + 1 }) ∧
    Option.map CacheEntry.svg (cacheGet (cacheSet m h e) h).1 = some e.svg := by
  have hstored : mget (cacheSet m h e) (getCacheKey h) = some (.entry e) := by
    unfold cacheSet
    rw [mget_addToIndex_entry _ h h hne, mget_mupdate_self]
  refine ⟨?_, ?_, ?_⟩
  · simp [cacheGet, hstored, CacheEntry.touch]
  · simp [cacheGet, hstored, CacheEntry.touch, mget_mupdate_self]
  · simp [cacheGet, hstored, CacheEntry.touch]

/-- Closed witness for `cache_set_get_roundtrip`. -/
theorem cache_set_get_roundtrip_witness :
    ("h" ≠ "index") ∧
    ((cacheGet (cacheSet ([] : Memento) "h" ⟨"h", "svg", 7, 3⟩) "h").1 =
      some ⟨"h", "svg", 7, 4⟩ ∧
     mget (cacheGet (cacheSet ([] : Memento) "h" ⟨"h", "svg", 7, 3⟩) "h").2
        (getCacheKey "h") = some (.entry ⟨"h", "svg", 7, 4⟩) ∧
     Option.map CacheEntry.svg
        (cacheGet (cacheSet ([] : Memento) "h" ⟨"h", "svg", 7, 3⟩) "h").1 =
      some "svg") :=
  ⟨by decide, cache_set_get_roundtrip [] "h" ⟨"h", "svg", 7, 3⟩ (by decide)⟩

/-! ### C5 — index consistency under set / invalidate / clear -/

theorem getIndex_mupdate_index (m : Memento) (l : List String) :
    getIndex (mupdate m CACHE_INDEX_KEY (some (.index l))) = l := by
  unfold getIndex
  rw [mget_mupdate_self]

theorem mget_foldl_erase (L : List String) (m : Memento) (key : String) :
    mget (L.foldl (fun acc h => mupdate acc (getCacheKey h) none) m) key =
      if ∃ x ∈ L, getCacheKey x = key then none else mget m key := by
  induction L generalizing m with
  | nil => simp
  | cons a L ih =>
    rw [List.foldl_cons, ih]
    by_cases hmem : ∃ x ∈ L, getCacheKey x = key
    · have : ∃ x ∈ a :: L, getCacheKey x = key := by
        obtain ⟨x, hx, hk⟩ := hmem
        exact ⟨x, List.mem_cons_of_mem a hx, hk⟩
      simp only [hmem, if_true, this]
    · simp only [hmem, if_false]
      by_cases ha : getCacheKey a = key
      · have hsub : mget (mupdate m (getCacheKey a) none) key = none := by
          rw [← ha]
          exact mget_mupdate_self m (getCacheKey a) none
        rw [hsub]
        have hQ : ∃ x ∈ a :: L, getCacheKey x = key :=
          ⟨a, List.mem_cons_self a L, ha⟩
        simp only [hQ, if_true]
      · rw [mget_mupdate_ne _ _ _ _ (fun he => ha he.symm)]
        have : ¬ ∃ x ∈ a :: L, getCacheKey x = key := by
          rintro ⟨x, hx, hk⟩
          rcases List.mem_cons.mp hx with hx | hx
          · exact ha (hx ▸ hk)
          · exact hmem ⟨x, hx, hk⟩
        simp only [this, if_false]

/-- The inductive invariant of the persistent cache: the index is
duplicate-free, never lists the reserved name, and lists exactly the
hashes whose entry record is present. -/
def CacheInv (m : Memento) : Prop :=
  (getIndex m).Nodup ∧ "index" ∉ getIndex m ∧
  ∀ h, h ≠ "index" →
    ((h ∈ getIndex m) ↔ ∃ d, mget m (getCacheKey h) = some (.entry d))

theorem cacheInv_empty : CacheInv ([] : Memento) := by
  have hidx : getIndex ([] : Memento) = [] := rfl
  refine ⟨by rw [hidx]; exact List.nodup_nil, by rw [hidx]; simp, ?_⟩
  intro h _
  rw [hidx]
  simp only [List.not_mem_nil, false_iff]
  rintro ⟨d, hd⟩
  exact Option.noConfusion hd

theorem cacheInv_set {m : Memento} (inv : CacheInv m) {h : String}
    (e : CacheEntry) (hne : h ≠ "index") : CacheInv (cacheSet m h e) := by
  obtain ⟨hnd, hix, hiff⟩ := inv
  have hm1 : getIndex (mupdate m (getCacheKey h) (some (.entry e))) = getIndex m :=
    getIndex_mupdate_entry m h hne _
  unfold cacheSet addToIndex
  rw [hm1]
  by_cases hmem : h ∈ getIndex m
  · rw [if_pos hmem]
    refine ⟨by rw [hm1]; exact hnd, by rw [hm1]; exact hix, ?_⟩
    intro h2 hne2
    rw [hm1]
    by_cases heq : h2 = h
    · subst heq
      simp only [hmem, true_iff]
      exact ⟨e, mget_mupdate_self _ _ _⟩
    · rw [mget_mupdate_ne _ _ _ _ (fun he => heq (getCacheKey_inj he))]
      exact hiff h2 hne2
  · rw [if_neg hmem]
    refine ⟨?_, ?_, ?_⟩
    · rw [getIndex_mupdate_index]
      rw [List.nodup_append]
      exact ⟨hnd, List.nodup_singleton h, fun a ha hb => by
        rw [List.mem_singleton] at hb
        exact hmem (hb ▸ ha)⟩
    · rw [getIndex_mupdate_index]
      intro hcon
      rcases List.mem_append.mp hcon with hcon | hcon
      · exact hix hcon
      · rw [List.mem_singleton] at hcon
        exact hne hcon.symm
    · intro h2 hne2
      rw [getIndex_mupdate_index,
        mget_mupdate_ne _ _ _ _ (getCacheKey_ne_indexKey hne2)]
      by_cases heq : h2 = h
      · subst heq
        constructor
        · intro _
          exact ⟨e, mget_mupdate_self _ _ _⟩
        · intro _
          exact List.mem_append_right _ (List.mem_singleton_self h2)
      · rw [mget_mupdate_ne _ _ _ _ (fun he => heq (getCacheKey_inj he))]
        constructor
        · intro hin
          rcases List.mem_append.mp hin with hin | hin
          · exact (hiff h2 hne2).mp hin
          · rw [List.mem_singleton] at hin
            exact absurd hin heq
        · intro hd
          exact List.mem_append_left _ ((hiff h2 hne2).mpr hd)

theorem cacheInv_invalidate {m : Memento} (inv : CacheInv m) {h : String}
    (hne : h ≠ "index") : CacheInv (cacheInvalidate m h) := by
  obtain ⟨hnd, hix, hiff⟩ := inv
  have hm1 : getIndex (mupdate m (getCacheKey h) none) = getIndex m :=
    getIndex_mupdate_entry m h hne _
  unfold cacheInvalidate removeFromIndex
  rw [hm1]
  refine ⟨?_, ?_, ?_⟩
  · rw [getIndex_mupdate_index]
    exact hnd.filter _
  · rw [getIndex_mupdate_index]
    intro hcon
    exact hix (List.mem_of_mem_filter hcon)
  · intro h2 hne2
    rw [getIndex_mupdate_index,
      mget_mupdate_ne _ _ _ _ (getCacheKey_ne_indexKey hne2)]
    by_cases heq : h2 = h
    · subst heq
      rw [mget_mupdate_self]
      constructor
      · intro hin
        have := List.of_mem_filter hin
        simp at this
      · rintro ⟨d, hd⟩
        exact absurd hd (by simp)
    · rw [mget_mupdate_ne _ _ _ _ (fun he => heq (getCacheKey_inj he))]
      constructor
      · intro hin
        exact (hiff h2 hne2).mp (List.mem_of_mem_filter hin)
      · intro hd
        rw [List.mem_filter]
        exact ⟨(hiff h2 hne2).mpr hd, by simp [heq]⟩

theorem cacheInv_clear {m : Memento} (inv : CacheInv m) :
    CacheInv (cacheClear m) := by
  obtain ⟨_, _, hiff⟩ := inv
  have hidx : getIndex (cacheClear m) = [] := by
    unfold cacheClear getIndex
    rw [mget_mupdate_self]
  refine ⟨by rw [hidx]; exact List.nodup_nil, by rw [hidx]; simp, ?_⟩
  intro h2 hne2
  rw [hidx]
  simp only [List.not_mem_nil, false_iff]
  rintro ⟨d, hd⟩
  unfold cacheClear at hd
  rw [mget_mupdate_ne _ _ _ _ (getCacheKey_ne_indexKey hne2),
    mget_foldl_erase] at hd
  by_cases hin : h2 ∈ getIndex m
  · rw [if_pos ⟨h2, hin, rfl⟩] at hd
    exact Option.noConfusion hd
  · have hcond : ¬ ∃ x ∈ getIndex m, getCacheKey x = getCacheKey h2 := by
      rintro ⟨x, hx, hk⟩
      exact hin (getCacheKey_inj hk ▸ hx)
    rw [if_neg hcond] at hd
    exact hin ((hiff h2 hne2).mpr ⟨d, hd⟩)

/-- One persistent-cache mutation, as in the spec's "any sequence of
set / invalidate / clear calls". -/
inductive CacheOp
  | set (hash : String) (e : CacheEntry)
  | invalidate (hash : String)
  | clear
deriving DecidableEq, Repr

def CacheOp.hashOf : CacheOp → Option String
  | .set h _ => some h
  | .invalidate h => some h
  | .clear => none

def runOps (ops : List CacheOp) : Memento :=
  ops.foldl (fun m op =>
    match op with
    | .set h e => cacheSet m h e
    | .invalidate h => cacheInvalidate m h
    | .clear => cacheClear m) ([] : Memento)

theorem cacheInv_runOps (ops : List CacheOp)
    (hops : ∀ op ∈ ops, op.hashOf ≠ some "index") : CacheInv (runOps ops) := by
  suffices hgen : ∀ (l : List CacheOp) (m : Memento), CacheInv m →
      (∀ op ∈ l, op.hashOf ≠ some "index") →
      CacheInv (l.foldl (fun m op =>
        match op with
        | .set h e => cacheSet m h e
        | .invalidate h => cacheInvalidate m h
        | .clear => cacheClear m) m) by
    exact hgen ops [] cacheInv_empty hops
  intro l
  induction l with
  | nil => intro m hm _; exact hm
  | cons op l ih =>
    intro m hm hops2
    rw [List.foldl_cons]
    have hop := hops2 op (List.mem_cons_self op l)
    have htail := fun o ho => hops2 o (List.mem_cons_of_mem op ho)
    cases op with
    | set h e =>
      exact ih _ (cacheInv_set hm e (fun he => hop (by rw [he]; rfl))) htail
    | invalidate h =>
      exact ih _ (cacheInv_invalidate hm (fun he => hop (by rw [he]; rfl))) htail
    | clear => exact ih _ (cacheInv_clear hm) htail

theorem cacheGet_isSome_iff (m : Memento) (h : String) :
    (cacheGet m h).1.isSome ↔ ∃ d, mget m (getCacheKey h) = some (.entry d) := by
  unfold cacheGet
  cases hv : mget m (getCacheKey h) with
  | none => simp
  | some v =>
    cases v with
    | entry d => simp
    | index l => simp

/-- **C5.** Starting from an empty persistent cache, after any finite
sequence of `set` / `invalidate` / `clear` operations (on real
fingerprints, i.e. hashes other than the reserved literal `"index"`),
the index is duplicate-free, a hash is in the index iff `get` finds its
entry, and `stats().count` is the index length — hence the number of
present hashes. -/
theorem cache_index_consistency (ops : List CacheOp)
    (hops : ∀ op ∈ ops, op.hashOf ≠ some "index") :
    (getIndex (runOps ops)).Nodup ∧
    (∀ h, h ≠ "index" →
      ((cacheGet (runOps ops) h).1.isSome ↔ h ∈ getIndex (runOps ops))) ∧
    (getStats (runOps ops)).1.entryCount = (getIndex (runOps ops)).length := by
  obtain ⟨hnd, _, hiff⟩ := cacheInv_runOps ops hops
  refine ⟨hnd, ?_, rfl⟩
  intro h hne
  rw [cacheGet_isSome_iff]
  exact (hiff h hne).symm

/-- Closed witness for `cache_index_consistency`. -/
theorem cache_index_consistency_witness :
    (getIndex (runOps [.set "a" ⟨"a", "s", 1, 0⟩, .set "b" ⟨"b", "t", 2, 0⟩,
        .invalidate "a"])).Nodup ∧
    ((cacheGet (runOps [.set "a" ⟨"a", "s", 1, 0⟩, .set "b" ⟨"b", "t", 2, 0⟩,
        .invalidate "a"]) "b").1.isSome ↔
      "b" ∈ getIndex (runOps [.set "a" ⟨"a", "s", 1, 0⟩,
        .set "b" ⟨"b", "t", 2, 0⟩, .invalidate "a"])) ∧
    (getStats (runOps [.set "a" ⟨"a", "s", 1, 0⟩, .set "b" ⟨"b", "t", 2, 0⟩,
        .invalidate "a"])).1.entryCount =
      (getIndex (runOps [.set "a" ⟨"a", "s", 1, 0⟩, .set "b" ⟨"b", "t", 2, 0⟩,
        .invalidate "a"])).length :=
  have h := cache_index_consistency
    [.set "a" ⟨"a", "s", 1, 0⟩, .set "b" ⟨"b", "t", 2, 0⟩, .invalidate "a"]
    (by decide)
  ⟨h.1, h.2.1 "b" (by decide), h.2.2⟩

/-! ### C8 — `createdAt` behaviour -/

/-- **C8, counterexample.**  The claim says no cache operation —
including `set` re-inserting the same fingerprint — ever changes a
stored entry's `createdAt` (`timestamp`).  But `set` overwrites the
record wholesale: re-inserting fingerprint `"h"` with a fresh entry
created at time 200 replaces the stored creation time 100. -/
theorem cache_createdAt_set_counterexample :
    mget (cacheSet ([] : Memento) "h" ⟨"h", "svg", 100, 0⟩) (getCacheKey "h") =
      some (.entry ⟨"h", "svg", 100, 0⟩) ∧
    mget (cacheSet (cacheSet ([] : Memento) "h" ⟨"h", "svg", 100, 0⟩) "h"
        ⟨"h", "svg2", 200, 0⟩) (getCacheKey "h") =
      some (.entry ⟨"h", "svg2", 200, 0⟩) ∧
    (200 : Nat) ≠ 100 := by decide

/-- **C8, amended.**  `createdAt` (`timestamp`) is set at entry
construction and is never changed by `get` (which increments only
`accessCount`, by exactly 1, and persists the touched record), nor by
`invalidate` or `clear` for any entry they leave in place; but `set`
re-inserting a fingerprint replaces the stored record — `createdAt`
included — with the new entry's values, while leaving other
fingerprints' records unchanged. -/
theorem cache_createdAt_discipline (m : Memento) (h h2 : String)
    (d e : CacheEntry) (hne : h ≠ "index") ( _hne2 : h2 ≠ "index")
    (hne12 : h2 ≠ h) (hd : mget m (getCacheKey h) = some (.entry d)) :
    (d.touch.timestamp = d.timestamp ∧ d.touch.accessCount = d.accessCount + 1) ∧
    ((cacheGet m h).1 = some d.touch ∧
     mget (cacheGet m h).2 (getCacheKey h) = some (.entry d.touch) ∧
     mget (cacheGet m h).2 (getCacheKey h2) = mget m (getCacheKey h2)) ∧
    mget (cacheInvalidate m h2) (getCacheKey h) = mget m (getCacheKey h) ∧
    (h ∉ getIndex m → mget (cacheClear m) (getCacheKey h) = mget m (getCacheKey h)) ∧
    mget (cacheSet m h e) (getCacheKey h) = some (.entry e) ∧
    mget (cacheSet m h2 e) (getCacheKey h) = mget m (getCacheKey h) := by
  have hkne : getCacheKey h2 ≠ getCacheKey h := fun he => hne12 (getCacheKey_inj he)
  refine ⟨⟨rfl, rfl⟩, ⟨?_, ?_, ?_⟩, ?_, ?_, ?_, ?_⟩
  · simp [cacheGet, hd]
  · simp [cacheGet, hd, mget_mupdate_self]
  · simp only [cacheGet, hd]
    exact mget_mupdate_ne _ _ _ _ hkne
  · unfold cacheInvalidate removeFromIndex
    rw [mget_mupdate_ne _ _ _ _ (getCacheKey_ne_indexKey hne),
      mget_mupdate_ne _ _ _ _ (fun he => hne12 (getCacheKey_inj he).symm)]
  · intro hnin
    unfold cacheClear
    rw [mget_mupdate_ne _ _ _ _ (getCacheKey_ne_indexKey hne),
      mget_foldl_erase]
    have : ¬ ∃ x ∈ getIndex m, getCacheKey x = getCacheKey h := by
      rintro ⟨x, hx, hk⟩
      exact hnin (getCacheKey_inj hk ▸ hx)
    rw [if_neg this]
  · unfold cacheSet
    rw [mget_addToIndex_entry _ h h hne, mget_mupdate_self]
  · unfold cacheSet
    rw [mget_addToIndex_entry _ h2 h hne,
      mget_mupdate_ne _ _ _ _ (fun he => hne12 (getCacheKey_inj he).symm)]

/-- Closed witness for `cache_createdAt_discipline`. -/
theorem cache_createdAt_discipline_witness :
    ((CacheEntry.touch ⟨"a", "s", 5, 2⟩).timestamp = 5 ∧
     (CacheEntry.touch ⟨"a", "s", 5, 2⟩).accessCount = 2 + 1) ∧
    ((cacheGet (cacheSet ([] : Memento) "a" ⟨"a", "s", 5, 2⟩) "a").1 =
        some (CacheEntry.touch ⟨"a", "s", 5, 2⟩) ∧
     mget (cacheGet (cacheSet ([] : Memento) "a" ⟨"a", "s", 5, 2⟩) "a").2
        (getCacheKey "a") = some (.entry (CacheEntry.touch ⟨"a", "s", 5, 2⟩)) ∧
     mget (cacheGet (cacheSet ([] : Memento) "a" ⟨"a", "s", 5, 2⟩) "a").2
        (getCacheKey "b") =
       mget (cacheSet ([] : Memento) "a" ⟨"a", "s", 5, 2⟩) (getCacheKey "b")) ∧
    mget (cacheInvalidate (cacheSet ([] : Memento) "a" ⟨"a", "s", 5, 2⟩) "b")
        (getCacheKey "a") =
      mget (cacheSet ([] : Memento) "a" ⟨"a", "s", 5, 2⟩) (getCacheKey "a") ∧
    ("a" ∉ getIndex (cacheSet ([] : Memento) "a" ⟨"a", "s", 5, 2⟩) →
      mget (cacheClear (cacheSet ([] : Memento) "a" ⟨"a", "s", 5, 2⟩))
          (getCacheKey "a") =
        mget (cacheSet ([] : Memento) "a" ⟨"a", "s", 5, 2⟩) (getCacheKey "a")) ∧
    mget (cacheSet (cacheSet ([] : Memento) "a" ⟨"a", "s", 5, 2⟩) "a"
        ⟨"a", "u", 9, 0⟩) (getCacheKey "a") = some (.entry ⟨"a", "u", 9, 0⟩) ∧
    mget (cacheSet (cacheSet ([] : Memento) "a" ⟨"a", "s", 5, 2⟩) "b"
        ⟨"a", "u", 9, 0⟩) (getCacheKey "a") =
      mget (cacheSet ([] : Memento) "a" ⟨"a", "s", 5, 2⟩) (getCacheKey "a") :=
  cache_createdAt_discipline (cacheSet ([] : Memento) "a" ⟨"a", "s", 5, 2⟩)
    "a" "b" ⟨"a", "s", 5, 2⟩ ⟨"a", "u", 9, 0⟩ (by decide) (by decide) (by decide)
    (by decide)

/-! ## `src/core/DocumentParser.ts`

The scanner is the JS regex
`^(backtick)(backtick)(backtick)tikz\s*$([\s\S]*?)^(backtick)(backtick)(backtick)\s*$`
with flags `mig`, driven by repeated `exec` with `lastIndex` reset to 0.
The embedding implements this particular pattern's backtracking search
directly:

* `^` / `$` in multiline mode hold at the string ends and around the
  four JS line terminators (`lineStartAt` / `boundaryAt`);
* an opening fence at a line start is the three-backtick literal, the
  tag `tikz` case-insensitively (`i` flag), then — greedily — the
  longest `\s`-run after which `$` holds (`largestBoundary`);
* the lazy capture stops at the first position from which the closing
  fence matches (`findClose`);
* on overall failure at a start position the engine moves one position
  right (`findOpen`); shrinking the opening `\s*`-run instead can never
  help, because any closing fence needs a backtick at a line start and
  the skipped region is all whitespace;
* `lastIndex` moves to the end of the match (`execLoop`). -/

def isLineTerm (c : Char) : Bool :=
  c = '\n' || c = '\r' || c = ' ' || c = ' '

def lineStartAt (t : List Char) (p : Nat) : Bool :=
  decide (p = 0) ||
    match t.get? (p - 1) with
    | some c => isLineTerm c
    | none => false

def boundaryAt (t : List Char) (q : Nat) : Bool :=
  decide (q = t.length) ||
    match t.get? q with
    | some c => isLineTerm c
    | none => false

def charsAt (t : List Char) (p : Nat) (lit : List Char) : Bool :=
  lit.isPrefixOf (t.drop p)

/-- The tag `tikz` at position `p`, case-insensitively. -/
def ciTikzAt (t : List Char) (p : Nat) : Bool :=
  match t.get? p, t.get? (p + 1), t.get? (p + 2), t.get? (p + 3) with
  | some a, some b, some c, some d =>
      decide (a.toLower = 't') && decide (b.toLower = 'i') &&
      decide (c.toLower = 'k') && decide (d.toLower = 'z')
  | _, _, _, _ => false

/-- Greedy `\s*$`: the largest `w2 ≤ w` such that positions
`base .. base+w2-1` stay inside the whitespace run (the caller passes
the run length as `w`) and `$` holds at `base + w2`. -/
def largestBoundary (t : List Char) (base : Nat) : Nat → Option Nat
  | 0 => if boundaryAt t base then some 0 else none
  | w + 1 =>
    if boundaryAt t (base + (w + 1)) then some (w + 1)
    else largestBoundary t base w

/-- Opening fence at `p`; on success returns the capture start. -/
def tryOpenAt (t : List Char) (p : Nat) : Option Nat :=
  if lineStartAt t p && charsAt t p ("```".data) && ciTikzAt t (p + 3) then
    match largestBoundary t (p + 7) (((t.drop (p + 7)).takeWhile jsWs).length) with
    | some w => some (p + 7 + w)
    | none => none
  else none

/-- Closing fence at `q`; on success returns the match end. -/
def tryCloseAt (t : List Char) (q : Nat) : Option Nat :=
  if lineStartAt t q && charsAt t q ("```".data) then
    match largestBoundary t (q + 3) (((t.drop (q + 3)).takeWhile jsWs).length) with
    | some v => some (q + 3 + v)
    | none => none
  else none

/-- Lazy `([\s\S]*?)`: first closing fence at or after `q`. -/
def findClose (t : List Char) : Nat → Nat → Option (Nat × Nat)
  | _, 0 => none
  | q, fuel + 1 =>
    match tryCloseAt t q with
    | some e => some (q, e)
    | none => findClose t (q + 1) fuel

/-- Scan start positions left to right; a full match needs an opening
fence and, somewhere after its capture start, a closing fence.  Returns
(capture start, capture end, match end). -/
def findOpen (t : List Char) : Nat → Nat → Option (Nat × Nat × Nat)
  | _, 0 => none
  | p, fuel + 1 =>
    match tryOpenAt t p with
    | some c0 =>
      match findClose t c0 (t.length + 1 - c0) with
      | some (q, e) => some (c0, q, e)
      | none => findOpen t (p + 1) fuel
    | none => findOpen t (p + 1) fuel

/-- Repeated `exec` from `lastIndex`; each entry is (capture start,
captured source). -/
def execLoop (t : List Char) : Nat → Nat → List (Nat × List Char)
  | _, 0 => []
  | li, fuel + 1 =>
    match findOpen t li (t.length + 1 - li) with
    | some (c0, q, e) => (c0, (t.drop c0).take (q - c0)) :: execLoop t e fuel
    | none => []

/-- `DocumentParser.parse`: all tikz fenced blocks, in document order,
as (capture start, captured source). -/
def parseDocument (t : List Char) : List (Nat × List Char) :=
  execLoop t 0 (t.length + 1)

/-! ## `TikzBlock` (`src/core/TikzBlock.ts`)

`hash = generateHash(source.trim())`; `generateHash` is SHA-256 hex, an
opaque pure function here (`hashFn`).  The per-extraction `id` and the
source `range` play no role in any claim and are omitted. -/

structure TikzBlock where
  source : List Char
  hash : String
deriving DecidableEq, Repr

def mkBlock (hashFn : List Char → String) (source : List Char) : TikzBlock :=
  ⟨source, hashFn (trimChars source)⟩

def docBlocks (hashFn : List Char → String) (t : List Char) : List TikzBlock :=
  (parseDocument t).map fun pr => mkBlock hashFn pr.2

/-! ## `PreviewManager` — error extraction and compat downgrade -/

/-- JS `String.prototype.includes`. -/
def jsIncludes (needle : List Char) : List Char → Bool
  | [] => needle.isEmpty
  | c :: t => needle.isPrefixOf (c :: t) || jsIncludes needle t

/-- `PreviewManager._extractTexError` on the error's message text
(`err?.message || String(err)` — the engine failure is modelled by its
message).  The regex `!(.*?)(?:\n|$)` succeeds iff the message contains
a `'!'` anywhere; its capture is the text between the first `'!'` and
the next newline (or the end). -/
def extractTexError (msg : List Char) : List Char :=
  if '!' ∈ msg then
    "TeX compilation failed: ".data ++
      trimChars ((msg.dropWhile fun c => decide (c ≠ '!')).tail.takeWhile
        fun c => decide (c ≠ '\n'))
  else if jsIncludes "timed out".data msg then msg
  else "TeX compilation failed. Check your LaTeX syntax.\n".data ++ msg.take 300

/-- The regex char class `[\d.]` (digits U+0030–U+0039 or `'.'`). -/
def jsDigitDot (c : Char) : Bool :=
  (decide (48 ≤ c.toNat) && decide (c.toNat ≤ 57)) || decide (c = '.')

/-- Consume an exact literal. -/
def dropLit : List Char → List Char → Option (List Char)
  | [], cs => some cs
  | _ :: _, [] => none
  | l :: ls, c :: cs => if c = l then dropLit ls cs else none

/-- One attempt, at the head of `cs`, of the pattern
`\\pgfplotsset\s*\{\s*compat\s*=\s*[\d.]+\s*\}`; returns the match
length.  Greedy `[\d.]+` / `\s*` need no backtracking: the follow-up
characters are outside each class. -/
def matchCompatLen (cs : List Char) : Option Nat :=
  match dropLit "\\pgfplotsset".data cs with
  | none => none
  | some r1 =>
    match dropLit "\x7b".data (r1.dropWhile jsWs) with
    | none => none
    | some r3 =>
      match dropLit "compat".data (r3.dropWhile jsWs) with
      | none => none
      | some r5 =>
        match dropLit "=".data (r5.dropWhile jsWs) with
        | none => none
        | some r7 =>
          let r8 := r7.dropWhile jsWs
          if (r8.takeWhile jsDigitDot).isEmpty then none
          else
            match dropLit "\x7d".data ((r8.dropWhile jsDigitDot).dropWhile jsWs) with
            | none => none
            | some r10 => some (cs.length - r10.length)

/-- `processed.replace(/\\pgfplotsset\s*\{\s*compat\s*=\s*[\d.]+\s*\}/,
'\\pgfplotsset{compat=1.16}')` — no `g` flag: only the first match is
replaced, and it is replaced unconditionally, whatever the version
number. -/
def replaceCompatFirst : List Char → List Char
  | [] => []
  | c :: cs =>
    match matchCompatLen (c :: cs) with
    | some n => "\\pgfplotsset\x7bcompat=1.16\x7d".data ++ (c :: cs).drop n
    | none => c :: replaceCompatFirst cs

/-- The text handed to the engine by `PreviewManager._renderTikzToSvg`:
`preprocessSource` then the compat downgrade.  Package/library
detection feeds only the engine's options and the engine itself (with
its timeout race) is the opaque `engine` parameter below. -/
def renderedSource (source : List Char) : List Char :=
  replaceCompatFirst (preprocessSource source)

/-! ## `PreviewManager` — state and the per-block orchestration -/

/-- The settled outcome of one engine invocation (`tex2svg` resolving,
throwing, or losing the timeout race — the latter two both land in the
`catch` with a message). -/
inductive EngineOutcome
  | ok (svg : String)
  | err (msg : List Char)

/-- One `_svgCache` slot: `{ svg?: string; error?: string }`. -/
inductive MemValue
  | svg (s : String)
  | error (msg : List Char)
deriving DecidableEq, Repr

abbrev MemCache : Type := List (String × MemValue)

def memGet : MemCache → String → Option MemValue
  | ([] : List (String × MemValue)), _ => none
  | ((k, v) :: m : List (String × MemValue)), key =>
      if k = key then some v else memGet m key

def memEraseKey (k : String) : List (String × MemValue) → List (String × MemValue)
  | [] => []
  | (k1, v) :: m => if k1 = k then memEraseKey k m else (k1, v) :: memEraseKey k m

/-- JS `Map.set`. -/
def memSet (m : MemCache) (k : String) (v : MemValue) : MemCache :=
  (k, v) :: memEraseKey k m

inductive PMEffect
  | parsed
  | engineCall (hash : String)
  | nudge
deriving DecidableEq, Repr

/-- The `PreviewManager` fields the claims touch: the in-memory SVG
cache, the persistent store behind `CacheManager`, and the re-entrancy
flag. -/
structure PMState where
  svgCache : MemCache
  store : Memento
  isRendering : Bool
deriving DecidableEq, Repr

def PMState.empty : PMState := ⟨([] : List (String × MemValue)), ([] : Memento), false⟩

section PreviewManager

variable (engine : List Char → EngineOutcome) (post : String → Bool → String)
  (darkMode : Bool) (now : Nat)

/-- The body of `PreviewManager._renderSingleBlock`'s chained step: run
the engine on the processed source; on success post-process into the
memory cache and persist the raw SVG (a fresh `CacheEntry` created at
`now`); on failure store the extracted error message in the memory
cache only.  The `try`/`catch` is total here — failures are data
(`EngineOutcome.err`), never exceptions. -/
def renderSingleBlock (hash : String) (source : List Char) (st : PMState) :
    PMState × List PMEffect :=
  match engine (renderedSource source) with
  | .ok svg =>
      ({ st with
          svgCache := memSet st.svgCache hash (.svg (post svg darkMode)),
          store := cacheSet st.store hash ⟨hash, svg, now, 0⟩ },
        [.engineCall hash])
  | .err msg =>
      ({ st with
          svgCache := memSet st.svgCache hash (.error (extractTexError msg)) },
        [.engineCall hash])

/-- One iteration of `renderDocument`'s block loop: skip when the hash
is in the memory cache; otherwise try the persistent cache (post-process
and nudge on a hit); otherwise render through the chain and nudge. -/
def processOneBlock (b : TikzBlock) (st : PMState) : PMState × List PMEffect :=
  if (memGet st.svgCache b.hash).isSome then (st, [])
  else
    match cacheGet st.store b.hash with
    | (some cached, store2) =>
        ({ st with
            store := store2,
            svgCache := memSet st.svgCache b.hash (.svg (post cached.svg darkMode)) },
          [.nudge])
    | (none, store2) =>
        let r := renderSingleBlock engine post darkMode now b.hash b.source
          { st with store := store2 }
        (r.1, r.2 ++ [.nudge])

def processBlocks : List TikzBlock → PMState → PMState × List PMEffect
  | [], st => (st, [])
  | b :: bs, st =>
    let r := processOneBlock engine post darkMode now b st
    let r2 := processBlocks bs r.1
    (r2.1, r.2 ++ r2.2)

/-- `PreviewManager.renderDocument` run to completion as one task (the
interleaved-task view is `orcStep` below): the re-entrancy guard is
checked first; then blocks are parsed; an empty document returns before
the flag is set; otherwise the flag is held for the whole loop and
cleared in the `finally`. -/
def renderDocument (hashFn : List Char → String) (doc : List Char)
    (st : PMState) : PMState × List PMEffect :=
  if st.isRendering then (st, [])
  else if (docBlocks hashFn doc).isEmpty then (st, [.parsed])
  else
    (⟨(processBlocks engine post darkMode now (docBlocks hashFn doc)
          ⟨st.svgCache, st.store, true⟩).1.svgCache,
      (processBlocks engine post darkMode now (docBlocks hashFn doc)
          ⟨st.svgCache, st.store, true⟩).1.store, false⟩,
      .parsed :: (processBlocks engine post darkMode now (docBlocks hashFn doc)
          ⟨st.svgCache, st.store, true⟩).2)

end PreviewManager

/-! ### C7 — pgfplots compat downgrade -/

theorem jsWs_false_of_digitDot {c : Char} (h : jsDigitDot c = true) :
    jsWs c = false := by
  have hval : c.toNat = 46 ∨ (48 ≤ c.toNat ∧ c.toNat ≤ 57) := by
    unfold jsDigitDot at h
    simp only [Bool.or_eq_true, Bool.and_eq_true, decide_eq_true_eq] at h
    rcases h with ⟨h1, h2⟩ | h1
    · exact Or.inr ⟨h1, h2⟩
    · exact Or.inl (by rw [h1]; rfl)
  cases hws : jsWs c
  · rfl
  · exfalso
    unfold jsWs at hws
    simp only [Bool.or_eq_true, Bool.and_eq_true, decide_eq_true_eq] at hws
    rcases hws with
      ((((((((((((((h1|h1)|h1)|h1)|h1)|h1)|h1)|h1)|h1)|⟨h1,h2⟩)|h1)|h1)|h1)|h1)|h1) <;>
      first
        | omega
        | (subst h1; revert hval; decide)

theorem dropLit_append (lit r : List Char) : dropLit lit (lit ++ r) = some r := by
  induction lit with
  | nil => rfl
  | cons c cs ih => simp [dropLit, ih]

theorem dropWhile_cons_false {p : Char → Bool} {c : Char} (l : List Char)
    (h : p c = false) : (c :: l).dropWhile p = c :: l := by
  simp [List.dropWhile, h]

theorem takeWhile_all_cons_false {p : Char → Bool} {v : List Char} {x : Char}
    (r : List Char) (hv : ∀ c ∈ v, p c = true) (hx : p x = false) :
    (v ++ x :: r).takeWhile p = v ∧ (v ++ x :: r).dropWhile p = x :: r := by
  induction v with
  | nil => simp [List.takeWhile, List.dropWhile, hx]
  | cons c cs ih =>
    have hc := hv c (List.mem_cons_self c cs)
    have hrec := ih fun a ha => hv a (List.mem_cons_of_mem c ha)
    simp only [List.cons_append, List.takeWhile_cons, List.dropWhile_cons, hc,
      if_true]
    exact ⟨by rw [hrec.1], by rw [hrec.2]⟩

theorem matchCompatLen_none_of_head {c : Char} (cs : List Char)
    (h : c ≠ '\\') : matchCompatLen (c :: cs) = none := by
  unfold matchCompatLen
  rw [show "\\pgfplotsset".data = '\\' :: "pgfplotsset".data from rfl]
  simp [dropLit, h]

theorem matchCompatLen_directive (v rest : List Char) (hv : v ≠ [])
    (hvd : ∀ c ∈ v, jsDigitDot c = true) :
    matchCompatLen ("\\pgfplotsset\x7bcompat=".data ++ (v ++ '}' :: rest)) =
      some (20 + v.length + 1) := by
  obtain ⟨c0, v2, rfl⟩ : ∃ c0 v2, v = c0 :: v2 := by
    cases v with
    | nil => exact absurd rfl hv
    | cons a b => exact ⟨a, b, rfl⟩
  have hc0 := hvd c0 (List.mem_cons_self c0 v2)
  have e1 : dropLit "\\pgfplotsset".data
      ("\\pgfplotsset\x7bcompat=".data ++ ((c0 :: v2) ++ '}' :: rest)) =
      some ("\x7bcompat=".data ++ ((c0 :: v2) ++ '}' :: rest)) := by
    rw [show "\\pgfplotsset\x7bcompat=".data ++ ((c0 :: v2) ++ '}' :: rest) =
        "\\pgfplotsset".data ++ ("\x7bcompat=".data ++ ((c0 :: v2) ++ '}' :: rest))
      from rfl]
    exact dropLit_append _ _
  have e2 : List.dropWhile jsWs ("\x7bcompat=".data ++ ((c0 :: v2) ++ '}' :: rest)) =
      "\x7bcompat=".data ++ ((c0 :: v2) ++ '}' :: rest) := by
    rw [show "\x7bcompat=".data ++ ((c0 :: v2) ++ '}' :: rest) =
        '{' :: ("compat=".data ++ ((c0 :: v2) ++ '}' :: rest)) from rfl]
    exact dropWhile_cons_false _ (by decide)
  have e3 : dropLit "\x7b".data ("\x7bcompat=".data ++ ((c0 :: v2) ++ '}' :: rest)) =
      some ("compat=".data ++ ((c0 :: v2) ++ '}' :: rest)) := by
    rw [show "\x7bcompat=".data ++ ((c0 :: v2) ++ '}' :: rest) =
        "\x7b".data ++ ("compat=".data ++ ((c0 :: v2) ++ '}' :: rest)) from rfl]
    exact dropLit_append _ _
  have e4 : List.dropWhile jsWs ("compat=".data ++ ((c0 :: v2) ++ '}' :: rest)) =
      "compat=".data ++ ((c0 :: v2) ++ '}' :: rest) := by
    rw [show "compat=".data ++ ((c0 :: v2) ++ '}' :: rest) =
        'c' :: ("ompat=".data ++ ((c0 :: v2) ++ '}' :: rest)) from rfl]
    exact dropWhile_cons_false _ (by decide)
  have e5 : dropLit "compat".data ("compat=".data ++ ((c0 :: v2) ++ '}' :: rest)) =
      some ("=".data ++ ((c0 :: v2) ++ '}' :: rest)) := by
    rw [show "compat=".data ++ ((c0 :: v2) ++ '}' :: rest) =
        "compat".data ++ ("=".data ++ ((c0 :: v2) ++ '}' :: rest)) from rfl]
    exact dropLit_append _ _
  have e6 : List.dropWhile jsWs ("=".data ++ ((c0 :: v2) ++ '}' :: rest)) =
      "=".data ++ ((c0 :: v2) ++ '}' :: rest) := by
    rw [show "=".data ++ ((c0 :: v2) ++ '}' :: rest) =
        '=' :: ((c0 :: v2) ++ '}' :: rest) from rfl]
    exact dropWhile_cons_false _ (by decide)
  have e7 : dropLit "=".data ("=".data ++ ((c0 :: v2) ++ '}' :: rest)) =
      some ((c0 :: v2) ++ '}' :: rest) := by
    rw [show "=".data ++ ((c0 :: v2) ++ '}' :: rest) =
        "=".data ++ ((c0 :: v2) ++ '}' :: rest) from rfl]
    exact dropLit_append _ _
  have e8 : List.dropWhile jsWs ((c0 :: v2) ++ '}' :: rest) =
      (c0 :: v2) ++ '}' :: rest := by
    rw [show (c0 :: v2) ++ '}' :: rest = c0 :: (v2 ++ '}' :: rest) from rfl]
    exact dropWhile_cons_false _ (jsWs_false_of_digitDot hc0)
  have htd := takeWhile_all_cons_false (p := jsDigitDot) (v := c0 :: v2)
    (x := '}') rest hvd (by decide)
  have e12 : List.dropWhile jsWs ('}' :: rest) = '}' :: rest :=
    dropWhile_cons_false _ (by decide)
  have e13 : dropLit "\x7d".data ('}' :: rest) = some rest := by
    rw [show ('}' :: rest) = "\x7d".data ++ rest from rfl]
    exact dropLit_append _ _
  have hA : ("\\pgfplotsset\x7bcompat=".data).length = 20 := by decide
  simp only [matchCompatLen, e1, e2, e3, e4, e5, e6, e7, e8, htd.1, htd.2,
    e12, e13, List.isEmpty_cons, Bool.false_eq_true, if_false]
  congr 1
  simp only [List.length_append, List.length_cons, hA]
  omega

/-- **C7, counterexample.**  The claim says a compat directive at or
below the supported version 1.16 is left unchanged; but the code
replaces the first `\pgfplotsset{compat=X}` unconditionally.  For
`X = 1.3` — below 1.16 in the plotting library's version order — the
source handed to the engine carries `compat=1.16`, i.e. the directive
was changed (here even raised). -/
theorem compat_clamp_counterexample :
    renderedSource "\\pgfplotsset\x7bcompat=1.3\x7d".data =
      "\\pgfplotsset\x7bcompat=1.16\x7d".data ∧
    renderedSource "\\pgfplotsset\x7bcompat=1.3\x7d".data ≠
      "\\pgfplotsset\x7bcompat=1.3\x7d".data := by
  constructor
  · decide
  · decide

/-- **C7, amended.**  The first plotting-compat directive in the
processed source — whatever its version number `v`, above or below
1.16 — is rewritten to `\pgfplotsset{compat=1.16}`; everything before
it (here: any prefix without a backslash) and everything after it,
including any later compat directives, is copied unchanged. -/
theorem compat_clamp_amended (pre v rest : List Char)
    (hpre : ∀ c ∈ pre, c ≠ '\\') (hv : v ≠ [])
    (hvd : ∀ c ∈ v, jsDigitDot c = true) :
    replaceCompatFirst (pre ++ ("\\pgfplotsset\x7bcompat=".data ++ (v ++ '}' :: rest))) =
      pre ++ ("\\pgfplotsset\x7bcompat=1.16\x7d".data ++ rest) := by
  induction pre with
  | nil =>
    simp only [List.nil_append]
    rw [show ("\\pgfplotsset\x7bcompat=".data ++ (v ++ '}' :: rest)) =
      '\\' :: ("pgfplotsset\x7bcompat=".data ++ (v ++ '}' :: rest)) from rfl]
    unfold replaceCompatFirst
    rw [show ('\\' :: ("pgfplotsset\x7bcompat=".data ++ (v ++ '}' :: rest))) =
      ("\\pgfplotsset\x7bcompat=".data ++ (v ++ '}' :: rest)) from rfl]
    rw [matchCompatLen_directive v rest hv hvd]
    have hd : List.drop (20 + v.length + 1)
        ("\\pgfplotsset\x7bcompat=".data ++ (v ++ '}' :: rest)) = rest := by
      have hlist : "\\pgfplotsset\x7bcompat=".data ++ (v ++ '}' :: rest) =
          ("\\pgfplotsset\x7bcompat=".data ++ (v ++ ['}'])) ++ rest := by
        simp
      have hA : ("\\pgfplotsset\x7bcompat=".data).length = 20 := by decide
      have hlen : 20 + v.length + 1 =
          ("\\pgfplotsset\x7bcompat=".data ++ (v ++ ['}'])).length := by
        simp only [List.length_append, List.length_cons, List.length_nil, hA]
        omega
      rw [hlist, hlen, List.drop_left]
    show "\\pgfplotsset\x7bcompat=1.16\x7d".data ++
        List.drop (20 + v.length + 1)
          ("\\pgfplotsset\x7bcompat=".data ++ (v ++ '}' :: rest)) =
      "\\pgfplotsset\x7bcompat=1.16\x7d".data ++ rest
    rw [hd]
  | cons p ps ih =>
    have hp : p ≠ '\\' := hpre p (List.mem_cons_self p ps)
    rw [List.cons_append]
    unfold replaceCompatFirst
    rw [show (p :: (ps ++ ("\\pgfplotsset\x7bcompat=".data ++ (v ++ '}' :: rest)))) =
      p :: (ps ++ ("\\pgfplotsset\x7bcompat=".data ++ (v ++ '}' :: rest))) from rfl]
    have hm : matchCompatLen
        (p :: (ps ++ ("\\pgfplotsset\x7bcompat=".data ++ (v ++ '}' :: rest)))) = none :=
      matchCompatLen_none_of_head _ hp
    rw [hm]
    rw [ih fun c hc => hpre c (List.mem_cons_of_mem p hc)]
    rfl

/-- Closed witness for `compat_clamp_amended`. -/
theorem compat_clamp_amended_witness :
    replaceCompatFirst ("x ".data ++ ("\\pgfplotsset\x7bcompat=".data ++
        ("1.18".data ++ '}' :: " \\pgfplotsset\x7bcompat=1.2\x7d".data))) =
      "x ".data ++ ("\\pgfplotsset\x7bcompat=1.16\x7d".data ++
        " \\pgfplotsset\x7bcompat=1.2\x7d".data) :=
  compat_clamp_amended "x ".data "1.18".data " \\pgfplotsset\x7bcompat=1.2\x7d".data
    (by decide) (by decide) (by decide)

/-! ### C3 — failure recovery and TeX error extraction -/

theorem memGet_memEraseKey (m : MemCache) (k key : String) :
    memGet (memEraseKey k m) key = if key = k then none else memGet m key := by
  induction m with
  | nil =>
    show memGet ([] : MemCache) key = if key = k then none else memGet ([] : MemCache) key
    by_cases h : key = k <;> simp [memGet, h]
  | cons p m ih =>
    obtain ⟨k1, v1⟩ := p
    show memGet (if k1 = k then memEraseKey k m else (k1, v1) :: memEraseKey k m)
      key = _
    by_cases h1 : k1 = k
    · rw [if_pos h1, ih]
      by_cases h2 : key = k
      · simp [h2]
      · have : k1 ≠ key := fun he => h2 (he ▸ h1)
        simp [h2, memGet, this]
    · rw [if_neg h1]
      by_cases h2 : k1 = key
      · have : ¬ key = k := fun he => h1 (h2.trans he)
        simp [memGet, h2, this]
      · simp [memGet, h2, ih]

theorem memGet_memSet_self (m : MemCache) (k : String) (v : MemValue) :
    memGet (memSet m k v) k = some v := by
  simp [memSet, memGet]

theorem memGet_memSet_ne (m : MemCache) (k key : String) (v : MemValue)
    (h : key ≠ k) : memGet (memSet m k v) key = memGet m key := by
  simp [memSet, memGet, Ne.symm h, memGet_memEraseKey, h]

/-- **C3, counterexample.**  The claim ties the recovered message to the
TeX error marker "a line starting with `'!'`"; but `_extractTexError`
captures from the first `'!'` anywhere in the message.  This engine
failure message has the marker line `"! Undefined control sequence"` as
its second line, yet the stored message is
`"TeX compilation failed: bad"` — it does not contain the marker text
`"Undefined control sequence"`. -/
theorem texError_marker_counterexample :
    splitLines "oops!bad\n! Undefined control sequence".data =
      ["oops!bad".data, "! Undefined control sequence".data] ∧
    extractTexError "oops!bad\n! Undefined control sequence".data =
      "TeX compilation failed: bad".data ∧
    jsIncludes "Undefined control sequence".data
      (extractTexError "oops!bad\n! Undefined control sequence".data) = false :=
  ⟨by decide, by decide, by decide⟩

/-- **C3, amended.**  Every engine invocation failure is recovered
locally into a Render Result: the extracted `{errorMessage}` is stored
in the memory cache under the block's fingerprint, the persistent store
is completely untouched (in particular stays empty for that
fingerprint), and the step returns normally — failures are data, no
exception propagates.  The extracted message is keyed on the *first*
`'!'` in the message (not on a line start): when the message starts
with `'!'`, the stored message is `"TeX compilation failed: "` followed
by the trimmed text up to the next newline, so for the engine throwing
`"! Undefined control sequence"` the stored message contains
`"Undefined control sequence"`. -/
theorem render_failure_recovery (engine : List Char → EngineOutcome)
    (post : String → Bool → String) (darkMode : Bool) (now : Nat)
    (hash : String) (source : List Char) (st : PMState) (msg : List Char)
    (heng : engine (renderedSource source) = .err msg) :
    (memGet (renderSingleBlock engine post darkMode now hash source st).1.svgCache
        hash = some (.error (extractTexError msg)) ∧
     (renderSingleBlock engine post darkMode now hash source st).1.store =
        st.store ∧
     (renderSingleBlock engine post darkMode now hash source st).2 =
        [.engineCall hash]) ∧
    (∀ rest : List Char,
      extractTexError ('!' :: rest) =
        "TeX compilation failed: ".data ++
          trimChars (rest.takeWhile fun c => decide (c ≠ '\n'))) ∧
    jsIncludes "Undefined control sequence".data
      (extractTexError "! Undefined control sequence".data) = true := by
  refine ⟨?_, ?_, by decide⟩
  · unfold renderSingleBlock
    rw [heng]
    exact ⟨memGet_memSet_self _ _ _, rfl, rfl⟩
  · intro rest
    unfold extractTexError
    rw [if_pos (List.mem_cons_self '!' rest)]
    have hdw : List.dropWhile (fun c => decide (c ≠ '!')) ('!' :: rest) =
        '!' :: rest :=
      dropWhile_cons_false _ (by decide)
    rw [hdw]
    rfl

/-- Closed witness for `render_failure_recovery`. -/
theorem render_failure_recovery_witness :
    (memGet (renderSingleBlock (fun _ => .err "! Undefined control sequence".data)
        (fun s _ => s) false 0 "h" "x".data PMState.empty).1.svgCache "h" =
      some (.error (extractTexError "! Undefined control sequence".data)) ∧
     (renderSingleBlock (fun _ => .err "! Undefined control sequence".data)
        (fun s _ => s) false 0 "h" "x".data PMState.empty).1.store =
       PMState.empty.store ∧
     (renderSingleBlock (fun _ => .err "! Undefined control sequence".data)
        (fun s _ => s) false 0 "h" "x".data PMState.empty).2 =
       [.engineCall "h"]) ∧
    (∀ rest : List Char,
      extractTexError ('!' :: rest) =
        "TeX compilation failed: ".data ++
          trimChars (rest.takeWhile fun c => decide (c ≠ '\n'))) ∧
    jsIncludes "Undefined control sequence".data
      (extractTexError "! Undefined control sequence".data) = true :=
  render_failure_recovery (fun _ => .err "! Undefined control sequence".data)
    (fun s _ => s) false 0 "h" "x".data PMState.empty
    "! Undefined control sequence".data rfl

/-! ### C2 — orchestrator skip rule and one-invocation-per-fingerprint -/

theorem cacheGet_pair_of_fst_none {m : Memento} {h : String}
    (hn : (cacheGet m h).1 = none) : cacheGet m h = (none, m) := by
  unfold cacheGet at hn ⊢
  cases hv : mget m (getCacheKey h) with
  | none => rfl
  | some v =>
    cases v with
    | entry d => rw [hv] at hn; exact Option.noConfusion hn
    | index l => rfl

theorem mget_cacheGet_snd_ne (m : Memento) (h h2 : String) (hne : h2 ≠ h) :
    mget (cacheGet m h).2 (getCacheKey h2) = mget m (getCacheKey h2) := by
  unfold cacheGet
  cases hv : mget m (getCacheKey h) with
  | none => simp [hv]
  | some v =>
    cases v with
    | entry d =>
      simp only [hv]
      exact mget_mupdate_ne _ _ _ _ fun he => hne (getCacheKey_inj he)
    | index l => simp [hv]

theorem mget_cacheSet_ne (m : Memento) (h h2 : String) (e : CacheEntry)
    (hne : h2 ≠ h) (hne2 : h2 ≠ "index") :
    mget (cacheSet m h e) (getCacheKey h2) = mget m (getCacheKey h2) := by
  unfold cacheSet
  rw [mget_addToIndex_entry _ h h2 hne2,
    mget_mupdate_ne _ _ _ _ fun he => hne (getCacheKey_inj he)]

/-- Per-block frame: a fingerprint already resolved in the memory cache
is not re-rendered, its memory-cache value and its persistent-store
record are left alone, and it is never the engine-call argument. -/
theorem processOneBlock_frame (engine : List Char → EngineOutcome)
    (post : String → Bool → String) (darkMode : Bool) (now : Nat)
    (b : TikzBlock) (st : PMState) (h : String) (hne : h ≠ "index")
    (hmem : (memGet st.svgCache h).isSome) :
    memGet (processOneBlock engine post darkMode now b st).1.svgCache h =
      memGet st.svgCache h ∧
    mget (processOneBlock engine post darkMode now b st).1.store (getCacheKey h) =
      mget st.store (getCacheKey h) ∧
    PMEffect.engineCall h ∉ (processOneBlock engine post darkMode now b st).2 := by
  unfold processOneBlock
  by_cases hb : (memGet st.svgCache b.hash).isSome
  · simp [hb]
  · have hbh : b.hash ≠ h := by
      intro he
      rw [he] at hb
      exact hb hmem
    rw [if_neg hb]
    cases hcg : cacheGet st.store b.hash with
    | mk fst store2 =>
      cases fst with
      | some cached =>
        refine ⟨memGet_memSet_ne _ _ _ _ (Ne.symm hbh), ?_, by simp⟩
        have := mget_cacheGet_snd_ne st.store b.hash h (Ne.symm hbh)
        rw [hcg] at this
        exact this
      | none =>
        have hpair := cacheGet_pair_of_fst_none (m := st.store) (h := b.hash)
          (by rw [hcg])
        rw [hcg] at hpair
        have hst2 : store2 = st.store := congrArg Prod.snd hpair
        subst hst2
        unfold renderSingleBlock
        cases heng : engine (renderedSource b.source) with
        | ok svg =>
          refine ⟨memGet_memSet_ne _ _ _ _ (Ne.symm hbh), ?_,
            by simp [Ne.symm hbh]⟩
          exact mget_cacheSet_ne _ _ _ _ (Ne.symm hbh) hne
        | err msg =>
          exact ⟨memGet_memSet_ne _ _ _ _ (Ne.symm hbh), rfl,
            by simp [Ne.symm hbh]⟩

theorem processBlocks_frame (engine : List Char → EngineOutcome)
    (post : String → Bool → String) (darkMode : Bool) (now : Nat)
    (bs : List TikzBlock) (st : PMState) (h : String) (hne : h ≠ "index")
    (hmem : (memGet st.svgCache h).isSome) :
    memGet (processBlocks engine post darkMode now bs st).1.svgCache h =
      memGet st.svgCache h ∧
    mget (processBlocks engine post darkMode now bs st).1.store (getCacheKey h) =
      mget st.store (getCacheKey h) ∧
    PMEffect.engineCall h ∉ (processBlocks engine post darkMode now bs st).2 := by
  induction bs generalizing st with
  | nil => exact ⟨rfl, rfl, by simp [processBlocks]⟩
  | cons b bs ih =>
    have h1 := processOneBlock_frame engine post darkMode now b st h hne hmem
    have hmem2 : (memGet (processOneBlock engine post darkMode now b st).1.svgCache
        h).isSome := by rw [h1.1]; exact hmem
    have h2 := ih (processOneBlock engine post darkMode now b st).1 hmem2
    refine ⟨by rw [show processBlocks engine post darkMode now (b :: bs) st =
        (let r := processOneBlock engine post darkMode now b st
         let r2 := processBlocks engine post darkMode now bs r.1
         (r2.1, r.2 ++ r2.2)) from rfl]; exact h2.1.trans h1.1, ?_, ?_⟩
    · show mget (processBlocks engine post darkMode now bs
        (processOneBlock engine post darkMode now b st).1).1.store
          (getCacheKey h) = _
      exact h2.2.1.trans h1.2.1
    · show PMEffect.engineCall h ∉
        (processOneBlock engine post darkMode now b st).2 ++
        (processBlocks engine post darkMode now bs
          (processOneBlock engine post darkMode now b st).1).2
      intro hin
      rcases List.mem_append.mp hin with hin | hin
      · exact h1.2.2 hin
      · exact h2.2.2 hin

/-- Within a pass the persistent store only ever holds entries whose
fingerprint the memory cache has already resolved (both start empty and
`cacheSet` follows `memSet`). -/
def StoreSubMem (st : PMState) : Prop :=
  ∀ h, (cacheGet st.store h).1.isSome → (memGet st.svgCache h).isSome

theorem storeSubMem_empty : StoreSubMem PMState.empty := by
  intro h hsome
  exact absurd hsome (by simp [PMState.empty, cacheGet, mget])

theorem mget_addToIndex_indexKey (m : Memento) (bh : String) :
    mget (addToIndex m bh) CACHE_INDEX_KEY = mget m CACHE_INDEX_KEY ∨
    ∃ l, mget (addToIndex m bh) CACHE_INDEX_KEY = some (.index l) := by
  unfold addToIndex
  by_cases hmem : bh ∈ getIndex m
  · exact Or.inl (by simp [hmem])
  · right
    refine ⟨getIndex m ++ [bh], ?_⟩
    simp only [hmem, if_false]
    exact mget_mupdate_self _ _ _

theorem memGet_isSome_memSet (m : MemCache) (k key : String) (v : MemValue)
    (h : (memGet m key).isSome) : (memGet (memSet m k v) key).isSome := by
  by_cases hk : key = k
  · subst hk; rw [memGet_memSet_self]; rfl
  · rw [memGet_memSet_ne _ _ _ _ hk]; exact h

theorem processOneBlock_mem_mono (engine : List Char → EngineOutcome)
    (post : String → Bool → String) (darkMode : Bool) (now : Nat)
    (b : TikzBlock) (st : PMState) (h : String)
    (hmem : (memGet st.svgCache h).isSome) :
    (memGet (processOneBlock engine post darkMode now b st).1.svgCache h).isSome := by
  unfold processOneBlock
  by_cases hb : (memGet st.svgCache b.hash).isSome
  · simpa [hb] using hmem
  · rw [if_neg hb]
    cases hcg : cacheGet st.store b.hash with
    | mk fst store2 =>
      cases fst with
      | some cached => exact memGet_isSome_memSet _ _ _ _ hmem
      | none =>
        unfold renderSingleBlock
        cases heng : engine (renderedSource b.source) with
        | ok svg => exact memGet_isSome_memSet _ _ _ _ hmem
        | err msg => exact memGet_isSome_memSet _ _ _ _ hmem

theorem processOneBlock_sets_own (engine : List Char → EngineOutcome)
    (post : String → Bool → String) (darkMode : Bool) (now : Nat)
    (b : TikzBlock) (st : PMState) :
    (memGet (processOneBlock engine post darkMode now b st).1.svgCache
      b.hash).isSome := by
  unfold processOneBlock
  by_cases hb : (memGet st.svgCache b.hash).isSome
  · simp [hb]
  · rw [if_neg hb]
    cases hcg : cacheGet st.store b.hash with
    | mk fst store2 =>
      cases fst with
      | some cached => rw [memGet_memSet_self]; rfl
      | none =>
        unfold renderSingleBlock
        cases heng : engine (renderedSource b.source) with
        | ok svg => rw [memGet_memSet_self]; rfl
        | err msg => rw [memGet_memSet_self]; rfl

theorem processBlocks_mem_mono (engine : List Char → EngineOutcome)
    (post : String → Bool → String) (darkMode : Bool) (now : Nat)
    (bs : List TikzBlock) (st : PMState) (h : String)
    (hmem : (memGet st.svgCache h).isSome) :
    (memGet (processBlocks engine post darkMode now bs st).1.svgCache h).isSome := by
  induction bs generalizing st with
  | nil => exact hmem
  | cons b bs ih =>
    exact ih _ (processOneBlock_mem_mono engine post darkMode now b st h hmem)

theorem processOneBlock_inv (engine : List Char → EngineOutcome)
    (post : String → Bool → String) (darkMode : Bool) (now : Nat)
    (b : TikzBlock) (st : PMState) (hbh : b.hash ≠ "index")
    (hinv : StoreSubMem st) :
    StoreSubMem (processOneBlock engine post darkMode now b st).1 := by
  unfold processOneBlock
  by_cases hb : (memGet st.svgCache b.hash).isSome
  · simpa [hb] using hinv
  · rw [if_neg hb]
    have hfst : (cacheGet st.store b.hash).1 = none := by
      cases hf : (cacheGet st.store b.hash).1 with
      | none => rfl
      | some c => exact absurd (hinv b.hash (by rw [hf]; rfl)) hb
    have hpair := cacheGet_pair_of_fst_none hfst
    rw [hpair]
    unfold renderSingleBlock
    cases heng : engine (renderedSource b.source) with
    | ok svg =>
      show StoreSubMem
        { st with
            svgCache := memSet st.svgCache b.hash (.svg (post svg darkMode)),
            store := cacheSet st.store b.hash ⟨b.hash, svg, now, 0⟩ }
      intro h2 hsome
      show (memGet (memSet st.svgCache b.hash (.svg (post svg darkMode))) h2).isSome
      by_cases h2b : h2 = b.hash
      · subst h2b
        rw [memGet_memSet_self]
        rfl
      · have hsome2 : (cacheGet
            (cacheSet st.store b.hash ⟨b.hash, svg, now, 0⟩) h2).1.isSome :=
          hsome
        by_cases h2i : h2 = "index"
        · subst h2i
          rw [cacheGet_isSome_iff] at hsome2
          obtain ⟨d, hd⟩ := hsome2
          rw [← indexKey_eq] at hd
          rw [show cacheSet st.store b.hash ⟨b.hash, svg, now, 0⟩ =
              addToIndex (mupdate st.store (getCacheKey b.hash)
                (some (.entry ⟨b.hash, svg, now, 0⟩))) b.hash from rfl] at hd
          rcases mget_addToIndex_indexKey
            (mupdate st.store (getCacheKey b.hash)
              (some (.entry ⟨b.hash, svg, now, 0⟩))) b.hash with hidx | ⟨l, hidx⟩
          · rw [hidx, mget_mupdate_ne _ _ _ _
              (Ne.symm (getCacheKey_ne_indexKey hbh))] at hd
            have hold : (cacheGet st.store "index").1.isSome := by
              rw [cacheGet_isSome_iff]
              exact ⟨d, by rw [← indexKey_eq]; exact hd⟩
            exact memGet_isSome_memSet _ _ _ _ (hinv "index" hold)
          · rw [hidx] at hd
            exact absurd hd (by simp)
        · rw [cacheGet_isSome_iff] at hsome2
          obtain ⟨d, hd⟩ := hsome2
          rw [mget_cacheSet_ne _ _ _ _ h2b h2i] at hd
          have hold : (cacheGet st.store h2).1.isSome := by
            rw [cacheGet_isSome_iff]; exact ⟨d, hd⟩
          exact memGet_isSome_memSet _ _ _ _ (hinv h2 hold)
    | err msg =>
      show StoreSubMem
        { st with
            svgCache := memSet st.svgCache b.hash (.error (extractTexError msg)) }
      intro h2 hsome
      exact memGet_isSome_memSet _ _ _ _ (hinv h2 hsome)

theorem processBlocks_count (engine : List Char → EngineOutcome)
    (post : String → Bool → String) (darkMode : Bool) (now : Nat)
    (bs : List TikzBlock) (st : PMState) (h : String)
    (hbs : ∀ b ∈ bs, b.hash ≠ "index") (hinv : StoreSubMem st) :
    (processBlocks engine post darkMode now bs st).2.count (.engineCall h) =
      if (memGet st.svgCache h).isSome then 0
      else if h ∈ bs.map TikzBlock.hash then 1 else 0 := by
  induction bs generalizing st with
  | nil =>
    show (List.count (PMEffect.engineCall h) []) = _
    by_cases hh : (memGet st.svgCache h).isSome <;> simp [hh]
  | cons b bs ih =>
    have hbh := hbs b (List.mem_cons_self b bs)
    have hbs2 : ∀ x ∈ bs, x.hash ≠ "index" :=
      fun x hx => hbs x (List.mem_cons_of_mem b hx)
    show (List.count (PMEffect.engineCall h)
      ((processOneBlock engine post darkMode now b st).2 ++
       (processBlocks engine post darkMode now bs
         (processOneBlock engine post darkMode now b st).1).2)) = _
    rw [List.count_append]
    by_cases hb : (memGet st.svgCache b.hash).isSome
    · have hstep : processOneBlock engine post darkMode now b st = (st, []) := by
        unfold processOneBlock
        rw [if_pos hb]
      rw [hstep]
      show List.count (PMEffect.engineCall h) [] +
        (processBlocks engine post darkMode now bs st).2.count
          (.engineCall h) = _
      rw [ih st hbs2 hinv]
      by_cases hh : (memGet st.svgCache h).isSome
      · simp [hh]
      · have hne : h ≠ b.hash := fun he => hh (he ▸ hb)
        simp [hh, hne]
    · have hfst : (cacheGet st.store b.hash).1 = none := by
        cases hf : (cacheGet st.store b.hash).1 with
        | none => rfl
        | some c => exact absurd (hinv b.hash (by rw [hf]; rfl)) hb
      have hpair := cacheGet_pair_of_fst_none hfst
      have hinv2 := processOneBlock_inv engine post darkMode now b st hbh hinv
      cases heng : engine (renderedSource b.source) with
      | ok svg =>
        have hstep : processOneBlock engine post darkMode now b st =
            ({ st with
                svgCache := memSet st.svgCache b.hash (.svg (post svg darkMode)),
                store := cacheSet st.store b.hash ⟨b.hash, svg, now, 0⟩ },
              [.engineCall b.hash, .nudge]) := by
          unfold processOneBlock
          rw [if_neg hb, hpair]
          unfold renderSingleBlock
          rw [heng]
          rfl
        rw [hstep] at hinv2 ⊢
        rw [ih _ hbs2 hinv2]
        by_cases hh : (memGet st.svgCache h).isSome
        · have hne : h ≠ b.hash := fun he => hb (he ▸ hh)
          have hpres : memGet (memSet st.svgCache b.hash
              (MemValue.svg (post svg darkMode))) h = memGet st.svgCache h :=
            memGet_memSet_ne _ _ _ _ hne
          simp [hpres, hh, hne]
        · by_cases hhb : h = b.hash
          · subst hhb
            have hset : memGet (memSet st.svgCache b.hash
                (MemValue.svg (post svg darkMode))) b.hash =
                some (MemValue.svg (post svg darkMode)) :=
              memGet_memSet_self _ _ _
            simp [hset, hh]
          · have hpres : memGet (memSet st.svgCache b.hash
                (MemValue.svg (post svg darkMode))) h = memGet st.svgCache h :=
              memGet_memSet_ne _ _ _ _ hhb
            simp [hpres, hh, hhb]
      | err msg =>
        have hstep : processOneBlock engine post darkMode now b st =
            ({ st with
                svgCache := memSet st.svgCache b.hash
                  (.error (extractTexError msg)) },
              [.engineCall b.hash, .nudge]) := by
          unfold processOneBlock
          rw [if_neg hb, hpair]
          unfold renderSingleBlock
          rw [heng]
          rfl
        rw [hstep] at hinv2 ⊢
        rw [ih _ hbs2 hinv2]
        by_cases hh : (memGet st.svgCache h).isSome
        · have hne : h ≠ b.hash := fun he => hb (he ▸ hh)
          have hpres : memGet (memSet st.svgCache b.hash
              (MemValue.error (extractTexError msg))) h = memGet st.svgCache h :=
            memGet_memSet_ne _ _ _ _ hne
          simp [hpres, hh, hne]
        · by_cases hhb : h = b.hash
          · subst hhb
            have hset : memGet (memSet st.svgCache b.hash
                (MemValue.error (extractTexError msg))) b.hash =
                some (MemValue.error (extractTexError msg)) :=
              memGet_memSet_self _ _ _
            simp [hset, hh]
          · have hpres : memGet (memSet st.svgCache b.hash
                (MemValue.error (extractTexError msg))) h = memGet st.svgCache h :=
              memGet_memSet_ne _ _ _ _ hhb
            simp [hpres, hh, hhb]

theorem processBlocks_mem_all (engine : List Char → EngineOutcome)
    (post : String → Bool → String) (darkMode : Bool) (now : Nat)
    (bs : List TikzBlock) (st : PMState) :
    ∀ b ∈ bs, (memGet (processBlocks engine post darkMode now bs st).1.svgCache
      b.hash).isSome := by
  induction bs generalizing st with
  | nil => intro b hb; exact absurd hb (List.not_mem_nil b)
  | cons b bs ih =>
    intro x hx
    show (memGet (processBlocks engine post darkMode now bs
      (processOneBlock engine post darkMode now b st).1).1.svgCache x.hash).isSome
    rcases List.mem_cons.mp hx with hx | hx
    · subst hx
      exact processBlocks_mem_mono engine post darkMode now bs _ _
        (processOneBlock_sets_own engine post darkMode now x st)
    · exact ih _ x hx

theorem processBlocks_inv (engine : List Char → EngineOutcome)
    (post : String → Bool → String) (darkMode : Bool) (now : Nat)
    (bs : List TikzBlock) (st : PMState)
    (hbs : ∀ b ∈ bs, b.hash ≠ "index") (hinv : StoreSubMem st) :
    StoreSubMem (processBlocks engine post darkMode now bs st).1 := by
  induction bs generalizing st with
  | nil => exact hinv
  | cons b bs ih =>
    exact ih _ (fun x hx => hbs x (List.mem_cons_of_mem b hx))
      (processOneBlock_inv engine post darkMode now b st
        (hbs b (List.mem_cons_self b bs)) hinv)

theorem docBlocks_hash_eq (hashFn : List Char → String) (doc : List Char)
    (b : TikzBlock) (hb : b ∈ docBlocks hashFn doc) :
    b.hash = hashFn (trimChars b.source) := by
  unfold docBlocks at hb
  rw [List.mem_map] at hb
  obtain ⟨pr, _, hpr⟩ := hb
  rw [← hpr]
  rfl

/-- **C2.**  (a) Skip rule: for any state, a fingerprint already in the
memory cache (success or error) is never the engine-call argument of a
`renderDocument` pass, and neither its memory-cache slot nor its
persistent-store record is written.  (b) From empty caches, two
`renderDocument` passes over the same document invoke the engine
exactly once per fingerprint occurring in the document's blocks — in
particular once total for two blocks with identical trimmed source —
and zero times for all other fingerprints.  (c) Blocks with identical
trimmed source have identical fingerprints.  (Real fingerprints are
SHA-256 hex, so the reserved literal `"index"` is excluded via `hhf`.) -/
theorem renderDocument_skip_and_single_invocation
    (hashFn : List Char → String) (engine : List Char → EngineOutcome)
    (post : String → Bool → String) (darkMode : Bool) (now : Nat)
    (doc : List Char) (st : PMState) (hhf : ∀ s, hashFn s ≠ "index") :
    (∀ h, h ≠ "index" → (memGet st.svgCache h).isSome →
      PMEffect.engineCall h ∉
        (renderDocument engine post darkMode now hashFn doc st).2 ∧
      memGet (renderDocument engine post darkMode now hashFn doc st).1.svgCache
          h = memGet st.svgCache h ∧
      mget (renderDocument engine post darkMode now hashFn doc st).1.store
          (getCacheKey h) = mget st.store (getCacheKey h)) ∧
    (∀ h,
      ((renderDocument engine post darkMode now hashFn doc PMState.empty).2 ++
        (renderDocument engine post darkMode now hashFn doc
          (renderDocument engine post darkMode now hashFn doc
            PMState.empty).1).2).count (PMEffect.engineCall h) =
      if h ∈ (docBlocks hashFn doc).map TikzBlock.hash then 1 else 0) ∧
    (∀ b1 b2, b1 ∈ docBlocks hashFn doc → b2 ∈ docBlocks hashFn doc →
      trimChars b1.source = trimChars b2.source → b1.hash = b2.hash) := by
  have hbs : ∀ b ∈ docBlocks hashFn doc, b.hash ≠ "index" := by
    intro b hb
    rw [docBlocks_hash_eq hashFn doc b hb]
    exact hhf _
  refine ⟨?_, ?_, ?_⟩
  · intro h hne hmem
    by_cases hr : st.isRendering
    · have hres : renderDocument engine post darkMode now hashFn doc st =
          (st, []) := by
        unfold renderDocument
        rw [if_pos hr]
      rw [hres]
      exact ⟨by simp, rfl, rfl⟩
    · by_cases hemp : (docBlocks hashFn doc).isEmpty
      · have hres : renderDocument engine post darkMode now hashFn doc st =
            (st, [.parsed]) := by
          unfold renderDocument
          rw [if_neg hr, if_pos hemp]
        rw [hres]
        refine ⟨?_, rfl, rfl⟩
        intro hin
        rcases List.mem_cons.mp hin with hin | hin
        · exact PMEffect.noConfusion hin
        · exact absurd hin (List.not_mem_nil _)
      · have hres : renderDocument engine post darkMode now hashFn doc st =
            (⟨(processBlocks engine post darkMode now (docBlocks hashFn doc)
                  ⟨st.svgCache, st.store, true⟩).1.svgCache,
              (processBlocks engine post darkMode now (docBlocks hashFn doc)
                  ⟨st.svgCache, st.store, true⟩).1.store, false⟩,
              .parsed :: (processBlocks engine post darkMode now
                (docBlocks hashFn doc) ⟨st.svgCache, st.store, true⟩).2) := by
          unfold renderDocument
          rw [if_neg hr, if_neg hemp]
        rw [hres]
        have hframe := processBlocks_frame engine post darkMode now
          (docBlocks hashFn doc) ⟨st.svgCache, st.store, true⟩ h hne hmem
        refine ⟨?_, hframe.1, hframe.2.1⟩
        intro hin
        rcases List.mem_cons.mp hin with hin | hin
        · exact PMEffect.noConfusion hin
        · exact hframe.2.2 hin
  · intro h
    by_cases hemp : (docBlocks hashFn doc).isEmpty
    · have hnil : docBlocks hashFn doc = [] := List.isEmpty_iff.mp hemp
      have h1 : renderDocument engine post darkMode now hashFn doc
          PMState.empty = (PMState.empty, [.parsed]) := by
        unfold renderDocument
        rw [if_neg (by simp [PMState.empty]), if_pos hemp]
      rw [h1, h1]
      simp [hnil]
    · have hinvA : StoreSubMem (⟨PMState.empty.svgCache, PMState.empty.store,
          true⟩ : PMState) :=
        fun h2 hsome => absurd hsome (by simp [PMState.empty, cacheGet, mget])
      have h1 : renderDocument engine post darkMode now hashFn doc
          PMState.empty =
          (⟨(processBlocks engine post darkMode now (docBlocks hashFn doc)
                ⟨PMState.empty.svgCache, PMState.empty.store, true⟩).1.svgCache,
            (processBlocks engine post darkMode now (docBlocks hashFn doc)
                ⟨PMState.empty.svgCache, PMState.empty.store, true⟩).1.store,
            false⟩,
            .parsed :: (processBlocks engine post darkMode now
              (docBlocks hashFn doc)
              ⟨PMState.empty.svgCache, PMState.empty.store, true⟩).2) := by
        unfold renderDocument
        rw [if_neg (by simp [PMState.empty]), if_neg hemp]
      have hinvB : StoreSubMem (processBlocks engine post darkMode now
          (docBlocks hashFn doc)
          ⟨PMState.empty.svgCache, PMState.empty.store, true⟩).1 :=
        processBlocks_inv engine post darkMode now _ _ hbs hinvA
      have hc1 : (processBlocks engine post darkMode now (docBlocks hashFn doc)
          ⟨PMState.empty.svgCache, PMState.empty.store, true⟩).2.count
            (.engineCall h) =
          if h ∈ (docBlocks hashFn doc).map TikzBlock.hash then 1 else 0 := by
        rw [processBlocks_count engine post darkMode now _ _ h hbs hinvA]
        simp [PMState.empty, memGet]
      have h2 : renderDocument engine post darkMode now hashFn doc
          (⟨(processBlocks engine post darkMode now (docBlocks hashFn doc)
                ⟨PMState.empty.svgCache, PMState.empty.store, true⟩).1.svgCache,
            (processBlocks engine post darkMode now (docBlocks hashFn doc)
                ⟨PMState.empty.svgCache, PMState.empty.store, true⟩).1.store,
            false⟩ : PMState) =
          (⟨(processBlocks engine post darkMode now (docBlocks hashFn doc)
              ⟨(processBlocks engine post darkMode now (docBlocks hashFn doc)
                  ⟨PMState.empty.svgCache, PMState.empty.store,
                    true⟩).1.svgCache,
                (processBlocks engine post darkMode now (docBlocks hashFn doc)
                  ⟨PMState.empty.svgCache, PMState.empty.store, true⟩).1.store,
                true⟩).1.svgCache,
            (processBlocks engine post darkMode now (docBlocks hashFn doc)
              ⟨(processBlocks engine post darkMode now (docBlocks hashFn doc)
                  ⟨PMState.empty.svgCache, PMState.empty.store,
                    true⟩).1.svgCache,
                (processBlocks engine post darkMode now (docBlocks hashFn doc)
                  ⟨PMState.empty.svgCache, PMState.empty.store, true⟩).1.store,
                true⟩).1.store, false⟩,
            .parsed :: (processBlocks engine post darkMode now
              (docBlocks hashFn doc)
              ⟨(processBlocks engine post darkMode now (docBlocks hashFn doc)
                  ⟨PMState.empty.svgCache, PMState.empty.store,
                    true⟩).1.svgCache,
                (processBlocks engine post darkMode now (docBlocks hashFn doc)
                  ⟨PMState.empty.svgCache, PMState.empty.store, true⟩).1.store,
                true⟩).2) := by
        unfold renderDocument
        rw [if_neg (by simp), if_neg hemp]
      have hinvB2 : StoreSubMem
          (⟨(processBlocks engine post darkMode now (docBlocks hashFn doc)
              ⟨PMState.empty.svgCache, PMState.empty.store, true⟩).1.svgCache,
            (processBlocks engine post darkMode now (docBlocks hashFn doc)
              ⟨PMState.empty.svgCache, PMState.empty.store, true⟩).1.store,
            true⟩ : PMState) :=
        fun h2 hsome => hinvB h2 hsome
      have hc2 : (processBlocks engine post darkMode now (docBlocks hashFn doc)
          ⟨(processBlocks engine post darkMode now (docBlocks hashFn doc)
              ⟨PMState.empty.svgCache, PMState.empty.store, true⟩).1.svgCache,
            (processBlocks engine post darkMode now (docBlocks hashFn doc)
              ⟨PMState.empty.svgCache, PMState.empty.store, true⟩).1.store,
            true⟩).2.count (.engineCall h) = 0 := by
        rw [processBlocks_count engine post darkMode now _ _ h hbs hinvB2]
        by_cases hmem : (memGet (processBlocks engine post darkMode now
            (docBlocks hashFn doc)
            ⟨PMState.empty.svgCache, PMState.empty.store,
              true⟩).1.svgCache h).isSome
        · simp only [hmem, if_true]
        · have hnin : h ∉ (docBlocks hashFn doc).map TikzBlock.hash := by
            intro hin
            rw [List.mem_map] at hin
            obtain ⟨b, hb, hbh⟩ := hin
            have hall := processBlocks_mem_all engine post darkMode now
              (docBlocks hashFn doc)
              ⟨PMState.empty.svgCache, PMState.empty.store, true⟩ b hb
            rw [hbh] at hall
            exact hmem hall
          simp only [hmem, if_false, Bool.false_eq_true, hnin]
      rw [h1, h2]
      rw [List.count_append, List.count_cons, List.count_cons, hc1, hc2]
      simp
  · intro b1 b2 hb1 hb2 htrim
    rw [docBlocks_hash_eq hashFn doc b1 hb1, docBlocks_hash_eq hashFn doc b2 hb2,
      htrim]

/-- Closed witness for `renderDocument_skip_and_single_invocation`. -/
theorem renderDocument_skip_and_single_invocation_witness :
    (PMEffect.engineCall "h" ∉
      (renderDocument (fun _ => .ok "svg") (fun s2 _ => s2) false 0
        (fun _ => "h") "```tikz\nA\n```".data
        ⟨[("h", .svg "x")], ([] : Memento), false⟩).2 ∧
     memGet (renderDocument (fun _ => .ok "svg") (fun s2 _ => s2) false 0
        (fun _ => "h") "```tikz\nA\n```".data
        ⟨[("h", .svg "x")], ([] : Memento), false⟩).1.svgCache "h" =
       memGet ([("h", MemValue.svg "x")]) "h" ∧
     mget (renderDocument (fun _ => .ok "svg") (fun s2 _ => s2) false 0
        (fun _ => "h") "```tikz\nA\n```".data
        ⟨[("h", .svg "x")], ([] : Memento), false⟩).1.store
          (getCacheKey "h") = mget ([] : Memento) (getCacheKey "h")) ∧
    ((renderDocument (fun _ => .ok "svg") (fun s2 _ => s2) false 0
        (fun _ => "h") "```tikz\nA\n```".data PMState.empty).2 ++
      (renderDocument (fun _ => .ok "svg") (fun s2 _ => s2) false 0
        (fun _ => "h") "```tikz\nA\n```".data
        (renderDocument (fun _ => .ok "svg") (fun s2 _ => s2) false 0
          (fun _ => "h") "```tikz\nA\n```".data PMState.empty).1).2).count
      (PMEffect.engineCall "h") =
    if "h" ∈ (docBlocks (fun _ => "h") "```tikz\nA\n```".data).map
        TikzBlock.hash then 1 else 0 :=
  have hhf : ∀ s2 : List Char, (fun _ : List Char => "h") s2 ≠ "index" := by
    intro s2
    show "h" ≠ "index"
    decide
  have hth := renderDocument_skip_and_single_invocation (fun _ => "h")
    (fun _ => .ok "svg") (fun s2 _ => s2) false 0 "```tikz\nA\n```".data
    ⟨[("h", .svg "x")], ([] : Memento), false⟩ hhf
  ⟨hth.1 "h" (by decide) (by decide), hth.2.1 "h"⟩

/-! ## C1 — the render chain serialization

`PreviewManager._renderSingleBlock` does
`this._renderChain = this._renderChain.then(async () => { ... });
await this._renderChain;` — each render request appends its step to the
chain (synchronously, so append-and-await is atomic w.r.t. other
callers) and then awaits the settling of its own step.  The cooperative
scheduler is modelled explicitly: a choice list drives a step function.
`submit` is the append (the step body catches every error, so each step
settles and the next `.then` continuation runs after it); `start` /
`finish` delimit the execution of the queued step whose body contains
the engine invocation — `start` fires only when no step is running and
takes the head of the chain; `observe i` is caller `i` resuming after
its `await`, enabled only once step `i` has settled.  Ids are assigned
in append order. -/

inductive ChainEv
  | submitted (i : Nat)
  | startEngine (i : Nat)
  | endEngine (i : Nat)
  | observed (i : Nat)
deriving DecidableEq, Repr

inductive ChainChoice
  | submit
  | start
  | finish
  | observe (i : Nat)
deriving DecidableEq, Repr

structure ChainState where
  nextId : Nat
  queue : List Nat
  running : Option Nat
  completed : Nat
  waiting : List Nat
  trace : List ChainEv
deriving DecidableEq, Repr

def ChainState.init : ChainState := ⟨0, [], none, 0, [], []⟩

def chainStep (c : ChainChoice) (s : ChainState) : ChainState :=
  match c with
  | .submit =>
      { s with
          nextId := s.nextId + 1,
          queue := s.queue ++ [s.nextId],
          waiting := s.waiting ++ [s.nextId],
          trace := s.trace ++ [.submitted s.nextId] }
  | .start =>
      match s.running, s.queue with
      | none, i :: q =>
          { s with
              running := some i,
              queue := q,
              trace := s.trace ++ [.startEngine i] }
      | _, _ => s
  | .finish =>
      match s.running with
      | some i =>
          { s with
              running := none,
              completed := s.completed + 1,
              trace := s.trace ++ [.endEngine i] }
      | none => s
  | .observe i =>
      if i < s.completed ∧ i ∈ s.waiting then
        { s with
            waiting := s.waiting.filter fun j => decide (j ≠ i),
            trace := s.trace ++ [.observed i] }
      else s

def chainRun (cs : List ChainChoice) : ChainState :=
  cs.foldl (fun s c => chainStep c s) ChainState.init

/-- The inductive invariant of the chain scheduler: the queue holds the
ids from the next unstarted one up to `nextId`; engine starts are
pairwise serialized (an earlier start's end lies strictly between it
and any later start) and happen in id order; start/end events exist for
exactly the started/completed ids; a started id that is completed has
its end event after its start; observations come after the observed
step's end; submissions are in id order and bounded by `nextId`. -/
def ChainInv (s : ChainState) : Prop :=
  (match s.running with
   | some i => i = s.completed ∧ s.completed < s.nextId ∧
       s.queue = List.range' (s.completed + 1) (s.nextId - (s.completed + 1))
   | none => s.completed ≤ s.nextId ∧
       s.queue = List.range' s.completed (s.nextId - s.completed)) ∧
  (∀ p q i j, p < q → s.trace.get? p = some (.startEngine i) →
    s.trace.get? q = some (.startEngine j) →
    i < j ∧ ∃ r, p < r ∧ r < q ∧ s.trace.get? r = some (.endEngine i)) ∧
  (∀ i, (∃ p, s.trace.get? p = some (.startEngine i)) ↔
    (i < s.completed ∨ s.running = some i)) ∧
  (∀ i, (∃ p, s.trace.get? p = some (.endEngine i)) ↔ i < s.completed) ∧
  (∀ p i, s.trace.get? p = some (.startEngine i) → i < s.completed →
    ∃ r, p < r ∧ s.trace.get? r = some (.endEngine i)) ∧
  (∀ i p, s.trace.get? p = some (.observed i) →
    ∃ q, q < p ∧ s.trace.get? q = some (.endEngine i)) ∧
  (∀ p q i j, p < q → s.trace.get? p = some (.submitted i) →
    s.trace.get? q = some (.submitted j) → i < j) ∧
  (∀ p i, s.trace.get? p = some (.submitted i) → i < s.nextId)

theorem range'_succ_cons (s n : Nat) :
    List.range' s (n + 1) = s :: List.range' (s + 1) n := by
  have := List.range'_succ s n 1
  simpa using this

theorem range'_concat_one (s n : Nat) :
    List.range' s (n + 1) = List.range' s n ++ [s + n] := by
  have := @List.range'_concat 1 s n
  simpa using this

theorem get?_some_lt {α : Type} {l : List α} {n : Nat} {a : α}
    (h : l.get? n = some a) : n < l.length :=
  (List.get?_eq_some.mp h).1

theorem get?_append_sing {α : Type} {l : List α} {e a : α} {p : Nat}
    (h : (l ++ [e]).get? p = some a) :
    (p < l.length ∧ l.get? p = some a) ∨ (p = l.length ∧ a = e) := by
  have hlt : p < l.length + 1 := by
    have := get?_some_lt h
    simpa using this
  rcases Nat.lt_or_ge p l.length with hp | hp
  · left
    exact ⟨hp, by rw [← List.get?_append hp]; exact h⟩
  · right
    have hpe : p = l.length := Nat.le_antisymm (Nat.lt_succ_iff.mp hlt) hp
    subst hpe
    rw [List.get?_concat_length] at h
    exact ⟨rfl, (Option.some_inj.mp h).symm⟩

theorem get?_append_sing_left {α : Type} {l : List α} {e a : α} {p : Nat}
    (h : l.get? p = some a) : (l ++ [e]).get? p = some a := by
  rw [List.get?_append (get?_some_lt h)]
  exact h

theorem get?_append_sing_not {l : List ChainEv} {e : ChainEv} {p : Nat}
    {x : ChainEv} (h : (l ++ [e]).get? p = some x) (hne : x ≠ e) :
    l.get? p = some x := by
  rcases get?_append_sing h with ⟨_, h⟩ | ⟨_, h⟩
  · exact h
  · exact absurd h hne

theorem exists_get?_append_sing {l : List ChainEv} {e x : ChainEv}
    (hne : x ≠ e) :
    (∃ p, (l ++ [e]).get? p = some x) ↔ ∃ p, l.get? p = some x := by
  constructor
  · rintro ⟨p, hp⟩
    exact ⟨p, get?_append_sing_not hp hne⟩
  · rintro ⟨p, hp⟩
    exact ⟨p, get?_append_sing_left hp⟩

theorem chainInv_init : ChainInv ChainState.init := by
  refine ⟨⟨Nat.le_refl 0, rfl⟩, ?_, ?_, ?_, ?_, ?_, ?_, ?_⟩ <;>
    simp [ChainState.init]

theorem chainInv_step (c : ChainChoice) (s : ChainState) (h : ChainInv s) :
    ChainInv (chainStep c s) := by
  obtain ⟨h1, h2, h3, h4, h5, h6, h7, h8⟩ := h
  cases c with
  | submit =>
    show ChainInv ⟨s.nextId + 1, s.queue ++ [s.nextId], s.running,
      s.completed, s.waiting ++ [s.nextId], s.trace ++ [.submitted s.nextId]⟩
    refine ⟨?_, ?_, ?_, ?_, ?_, ?_, ?_, ?_⟩
    · cases hr : s.running with
      | some i =>
        rw [hr] at h1
        obtain ⟨hic, hcn, hq⟩ := h1
        refine ⟨hic, Nat.lt_succ_of_lt hcn, ?_⟩
        rw [hq]
        have hsum : s.completed + 1 + (s.nextId - (s.completed + 1)) =
            s.nextId := by omega
        rw [show s.nextId + 1 - (s.completed + 1) =
          (s.nextId - (s.completed + 1)) + 1 by omega, range'_concat_one, hsum]
      | none =>
        rw [hr] at h1
        obtain ⟨hcn, hq⟩ := h1
        refine ⟨Nat.le_succ_of_le hcn, ?_⟩
        rw [hq]
        have hsum : s.completed + (s.nextId - s.completed) = s.nextId := by
          omega
        rw [show s.nextId + 1 - s.completed = (s.nextId - s.completed) + 1 by
          omega, range'_concat_one, hsum]
    · intro p q i j hpq hp hq
      have hp2 := get?_append_sing_not hp (by simp)
      have hq2 := get?_append_sing_not hq (by simp)
      obtain ⟨hij, r, hr1, hr2, hres⟩ := h2 p q i j hpq hp2 hq2
      exact ⟨hij, r, hr1, hr2, get?_append_sing_left hres⟩
    · intro i
      rw [exists_get?_append_sing (by simp)]
      exact h3 i
    · intro i
      rw [exists_get?_append_sing (by simp)]
      exact h4 i
    · intro p i hp hi
      obtain ⟨r, hr1, hres⟩ := h5 p i (get?_append_sing_not hp (by simp)) hi
      exact ⟨r, hr1, get?_append_sing_left hres⟩
    · intro i p hp
      obtain ⟨q, hq1, hres⟩ := h6 i p (get?_append_sing_not hp (by simp))
      exact ⟨q, hq1, get?_append_sing_left hres⟩
    · intro p q i j hpq hp hq
      rcases get?_append_sing hq with ⟨hqlen, hq2⟩ | ⟨hqlen, hq2⟩
      · have hp2 : s.trace.get? p = some (.submitted i) := by
          have hplen : p < s.trace.length := Nat.lt_trans hpq hqlen
          rw [← List.get?_append hplen]
          exact hp
        exact h7 p q i j hpq hp2 hq2
      · have hjn : j = s.nextId := by
          injection hq2
        have hp2 : s.trace.get? p = some (.submitted i) := by
          have hplen : p < s.trace.length := by omega
          rw [← List.get?_append hplen]
          exact hp
        rw [hjn]
        exact h8 p i hp2
    · intro p i hp
      rcases get?_append_sing hp with ⟨_, hp2⟩ | ⟨_, hp2⟩
      · exact Nat.lt_succ_of_lt (h8 p i hp2)
      · have : i = s.nextId := by injection hp2
        show i < s.nextId + 1
        omega
  | start =>
    cases hr : s.running with
    | some k =>
      have hstep : chainStep .start s = s := by
        unfold chainStep
        rw [hr]
      rw [hstep]
      exact ⟨h1, h2, h3, h4, h5, h6, h7, h8⟩
    | none =>
      cases hq : s.queue with
      | nil =>
        have hstep : chainStep .start s = s := by
          unfold chainStep
          rw [hr, hq]
        rw [hstep]
        exact ⟨h1, h2, h3, h4, h5, h6, h7, h8⟩
      | cons i0 q0 =>
        rw [hr] at h1
        obtain ⟨hcn, hqeq⟩ := h1
        rw [hq] at hqeq
        have hm : ∃ m, s.nextId - s.completed = m + 1 := by
          cases hnc : s.nextId - s.completed with
          | zero => rw [hnc] at hqeq; exact absurd hqeq (by simp)
          | succ m => exact ⟨m, rfl⟩
        obtain ⟨m, hm⟩ := hm
        rw [hm, range'_succ_cons] at hqeq
        have hi0 : i0 = s.completed := by injection hqeq
        have hq0 : q0 = List.range' (s.completed + 1) m := by injection hqeq
        have hstep : chainStep .start s = ⟨s.nextId, q0, some i0, s.completed,
            s.waiting, s.trace ++ [.startEngine i0]⟩ := by
          unfold chainStep
          rw [hr, hq]
        rw [hstep]
        refine ⟨?_, ?_, ?_, ?_, ?_, ?_, ?_, ?_⟩
        · refine ⟨hi0, ?_, ?_⟩
          · show s.completed < s.nextId
            omega
          · show q0 = List.range' (s.completed + 1)
              (s.nextId - (s.completed + 1))
            rw [hq0]
            congr 1
            omega
        · intro p q i j hpq hp hq2
          rcases get?_append_sing hq2 with ⟨hqlen, hq3⟩ | ⟨hqlen, hq3⟩
          · have hp3 : s.trace.get? p = some (.startEngine i) := by
              rw [← List.get?_append (Nat.lt_trans hpq hqlen)]
              exact hp
            obtain ⟨hij, r, hr1, hr2, hres⟩ := h2 p q i j hpq hp3 hq3
            exact ⟨hij, r, hr1, hr2, get?_append_sing_left hres⟩
          · have hji : j = i0 := by injection hq3
            have hp3 : s.trace.get? p = some (.startEngine i) := by
              rw [← List.get?_append (by omega)]
              exact hp
            have hic : i < s.completed := by
              rcases (h3 i).mp ⟨p, hp3⟩ with hlt | hcon
              · exact hlt
              · rw [hr] at hcon
                exact Option.noConfusion hcon
            refine ⟨by omega, ?_⟩
            obtain ⟨r, hr1, hres⟩ := h5 p i hp3 hic
            have hrlen : r < s.trace.length := get?_some_lt hres
            exact ⟨r, hr1, by omega, get?_append_sing_left hres⟩
        · intro i
          constructor
          · rintro ⟨p, hp⟩
            rcases get?_append_sing hp with ⟨_, hp2⟩ | ⟨_, hp2⟩
            · rcases (h3 i).mp ⟨p, hp2⟩ with hlt | hcon
              · exact Or.inl hlt
              · rw [hr] at hcon
                exact absurd hcon (by simp)
            · have : i = i0 := by injection hp2
              exact Or.inr (by rw [this])
          · intro hcase
            rcases hcase with hlt | hsome
            · obtain ⟨p, hp⟩ := (h3 i).mpr (Or.inl hlt)
              exact ⟨p, get?_append_sing_left hp⟩
            · have : i = i0 := by injection hsome with hh; exact hh.symm
              subst this
              exact ⟨s.trace.length, List.get?_concat_length _ _⟩
        · intro i
          rw [exists_get?_append_sing (by simp)]
          exact h4 i
        · intro p i hp hi
          rcases get?_append_sing hp with ⟨_, hp2⟩ | ⟨_, hp2⟩
          · obtain ⟨r, hr1, hres⟩ := h5 p i hp2 hi
            exact ⟨r, hr1, get?_append_sing_left hres⟩
          · have : i = i0 := by injection hp2
            have hi2 : i < s.completed := hi
            omega
        · intro i p hp
          obtain ⟨q2, hq1, hres⟩ := h6 i p (get?_append_sing_not hp (by simp))
          exact ⟨q2, hq1, get?_append_sing_left hres⟩
        · intro p q i j hpq hp hq2
          exact h7 p q i j hpq (get?_append_sing_not hp (by simp))
            (get?_append_sing_not hq2 (by simp))
        · intro p i hp
          exact h8 p i (get?_append_sing_not hp (by simp))
  | finish =>
    cases hr : s.running with
    | none =>
      have hstep : chainStep .finish s = s := by
        unfold chainStep
        rw [hr]
      rw [hstep]
      exact ⟨h1, h2, h3, h4, h5, h6, h7, h8⟩
    | some k =>
      rw [hr] at h1
      obtain ⟨hkc, hcn, hqeq⟩ := h1
      have hstep : chainStep .finish s = ⟨s.nextId, s.queue, none,
          s.completed + 1, s.waiting, s.trace ++ [.endEngine k]⟩ := by
        unfold chainStep
        rw [hr]
      rw [hstep]
      refine ⟨?_, ?_, ?_, ?_, ?_, ?_, ?_, ?_⟩
      · refine ⟨?_, ?_⟩
        · show s.completed + 1 ≤ s.nextId
          omega
        · show s.queue = List.range' (s.completed + 1)
            (s.nextId - (s.completed + 1))
          rw [hqeq]
      · intro p q i j hpq hp hq2
        have hp2 := get?_append_sing_not hp (by simp)
        have hq3 := get?_append_sing_not hq2 (by simp)
        obtain ⟨hij, r, hr1, hr2, hres⟩ := h2 p q i j hpq hp2 hq3
        exact ⟨hij, r, hr1, hr2, get?_append_sing_left hres⟩
      · intro i
        constructor
        · rintro ⟨p, hp⟩
          have hp2 := get?_append_sing_not hp (by simp)
          rcases (h3 i).mp ⟨p, hp2⟩ with hlt | hcon
          · exact Or.inl (show i < s.completed + 1 by omega)
          · rw [hr] at hcon
            have : k = i := by injection hcon
            exact Or.inl (show i < s.completed + 1 by omega)
        · intro hcase
          have hilt : i < s.completed + 1 := by
            rcases hcase with hlt | hcon
            · exact hlt
            · exact absurd hcon (by simp)
          rcases Nat.lt_succ_iff_lt_or_eq.mp hilt with hlt | heq
          · obtain ⟨p, hp⟩ := (h3 i).mpr (Or.inl hlt)
            exact ⟨p, get?_append_sing_left hp⟩
          · obtain ⟨p, hp⟩ := (h3 i).mpr (Or.inr (by rw [hr, hkc, heq]))
            exact ⟨p, get?_append_sing_left hp⟩
      · intro i
        constructor
        · rintro ⟨p, hp⟩
          rcases get?_append_sing hp with ⟨_, hp2⟩ | ⟨_, hp2⟩
          · exact Nat.lt_succ_of_lt ((h4 i).mp ⟨p, hp2⟩)
          · have : i = k := by injection hp2
            show i < s.completed + 1
            omega
        · intro hilt
          rcases Nat.lt_succ_iff_lt_or_eq.mp hilt with hlt | heq
          · obtain ⟨p, hp⟩ := (h4 i).mpr hlt
            exact ⟨p, get?_append_sing_left hp⟩
          · subst heq
            refine ⟨s.trace.length, ?_⟩
            rw [show ChainEv.endEngine s.completed = ChainEv.endEngine k by
              rw [hkc]]
            exact List.get?_concat_length _ _
      · intro p i hp hi
        have hp2 := get?_append_sing_not hp (by simp)
        rcases Nat.lt_succ_iff_lt_or_eq.mp hi with hlt | heq
        · obtain ⟨r, hr1, hres⟩ := h5 p i hp2 hlt
          exact ⟨r, hr1, get?_append_sing_left hres⟩
        · have hplen : p < s.trace.length := get?_some_lt hp2
          refine ⟨s.trace.length, hplen, ?_⟩
          rw [show ChainEv.endEngine i = ChainEv.endEngine k by rw [hkc, heq]]
          exact List.get?_concat_length _ _
      · intro i p hp
        obtain ⟨q2, hq1, hres⟩ := h6 i p (get?_append_sing_not hp (by simp))
        exact ⟨q2, hq1, get?_append_sing_left hres⟩
      · intro p q i j hpq hp hq2
        exact h7 p q i j hpq (get?_append_sing_not hp (by simp))
          (get?_append_sing_not hq2 (by simp))
      · intro p i hp
        exact h8 p i (get?_append_sing_not hp (by simp))
  | observe i0 =>
    have hstep : chainStep (.observe i0) s =
        if i0 < s.completed ∧ i0 ∈ s.waiting then
          ⟨s.nextId, s.queue, s.running, s.completed,
            s.waiting.filter fun j => decide (j ≠ i0),
            s.trace ++ [.observed i0]⟩
        else s := rfl
    by_cases hcond : i0 < s.completed ∧ i0 ∈ s.waiting
    · rw [hstep, if_pos hcond]
      refine ⟨h1, ?_, ?_, ?_, ?_, ?_, ?_, ?_⟩
      · intro p q i j hpq hp hq2
        have hp2 := get?_append_sing_not hp (by simp)
        have hq3 := get?_append_sing_not hq2 (by simp)
        obtain ⟨hij, r, hr1, hr2, hres⟩ := h2 p q i j hpq hp2 hq3
        exact ⟨hij, r, hr1, hr2, get?_append_sing_left hres⟩
      · intro i
        rw [exists_get?_append_sing (by simp)]
        exact h3 i
      · intro i
        rw [exists_get?_append_sing (by simp)]
        exact h4 i
      · intro p i hp hi
        obtain ⟨r, hr1, hres⟩ := h5 p i (get?_append_sing_not hp (by simp)) hi
        exact ⟨r, hr1, get?_append_sing_left hres⟩
      · intro i p hp
        rcases get?_append_sing hp with ⟨_, hp2⟩ | ⟨hplen, hp2⟩
        · obtain ⟨q2, hq1, hres⟩ := h6 i p hp2
          exact ⟨q2, hq1, get?_append_sing_left hres⟩
        · have hii : i = i0 := by injection hp2
          obtain ⟨q2, hq2⟩ := (h4 i).mpr (by rw [hii]; exact hcond.1)
          have hqlen : q2 < s.trace.length := get?_some_lt hq2
          exact ⟨q2, by omega, get?_append_sing_left hq2⟩
      · intro p q i j hpq hp hq2
        exact h7 p q i j hpq (get?_append_sing_not hp (by simp))
          (get?_append_sing_not hq2 (by simp))
      · intro p i hp
        exact h8 p i (get?_append_sing_not hp (by simp))
    · rw [hstep, if_neg hcond]
      exact ⟨h1, h2, h3, h4, h5, h6, h7, h8⟩

theorem chainInv_run (cs : List ChainChoice) : ChainInv (chainRun cs) := by
  suffices hgen : ∀ (l : List ChainChoice) (s : ChainState), ChainInv s →
      ChainInv (l.foldl (fun s2 c => chainStep c s2) s) by
    exact hgen cs ChainState.init chainInv_init
  intro l
  induction l with
  | nil => intro s hs; exact hs
  | cons c l ih =>
    intro s hs
    rw [List.foldl_cons]
    exact ih _ (chainInv_step c s hs)

/-- **C1.**  Under every cooperative schedule of submissions, step
executions and caller resumptions: (i) engine invocations are
serialized and ordered — a later `startEngine` has a strictly larger
step id, and the earlier step's `endEngine` lies strictly between the
two starts in the trace, so invocation intervals never overlap and
request `N` cannot start before request `N-1` has fully completed;
(ii) step ids are assigned in submission (chain-append) order, so with
(i) requests are served strictly in append order; (iii) a caller's
resumption (`observed i`) occurs only after its own step's `endEngine i`
— a caller does not observe completion until its own step has run. -/
theorem chain_serialization (cs : List ChainChoice) :
    (∀ p q i j, p < q →
      (chainRun cs).trace.get? p = some (.startEngine i) →
      (chainRun cs).trace.get? q = some (.startEngine j) →
      i < j ∧ ∃ r, p < r ∧ r < q ∧
        (chainRun cs).trace.get? r = some (.endEngine i)) ∧
    (∀ p q i j, p < q →
      (chainRun cs).trace.get? p = some (.submitted i) →
      (chainRun cs).trace.get? q = some (.submitted j) → i < j) ∧
    (∀ i p, (chainRun cs).trace.get? p = some (.observed i) →
      ∃ q, q < p ∧ (chainRun cs).trace.get? q = some (.endEngine i)) := by
  obtain ⟨_, h2, _, _, _, h6, h7, _⟩ := chainInv_run cs
  exact ⟨h2, h7, fun i p hp => h6 i p hp⟩

/-- Closed witness for `chain_serialization`: two requests submitted
without awaiting the first; the trace is
`[submitted 0, submitted 1, startEngine 0, endEngine 0, startEngine 1,
endEngine 1, observed 0]`. -/
theorem chain_serialization_witness :
    (0 < 1 ∧ ∃ r, 2 < r ∧ r < 4 ∧
      (chainRun [.submit, .submit, .start, .finish, .start, .finish,
        .observe 0]).trace.get? r = some (.endEngine 0)) ∧
    ∃ q, q < 6 ∧
      (chainRun [.submit, .submit, .start, .finish, .start, .finish,
        .observe 0]).trace.get? q = some (.endEngine 0) :=
  have hth := chain_serialization
    [.submit, .submit, .start, .finish, .start, .finish, .observe 0]
  ⟨hth.1 2 4 0 1 (by decide) (by decide) (by decide),
   hth.2.2 0 6 (by decide)⟩

/-! ## C6 — the re-entrancy guard across interleaved orchestration passes

`renderDocument` tasks are cooperative: between `await`s other logical
tasks run.  Another `renderDocument` call can only ever run its guard
segment while a pass holds `_isRendering` (the guard check, the parse
and the flag set are one synchronous segment — there is no `await`
between lines 65 and 73 — so they are atomic here).  A task is `idle`
before its first segment, `looping` while inside the block loop (one
loop iteration per step; the flag stays `true` throughout), `finished`
after the `finally`, and `dropped` when the guard suppressed it. -/

inductive TaskPhase
  | idle (doc : List Char)
  | looping (blocks : List TikzBlock)
  | finished
  | dropped
deriving DecidableEq, Repr

inductive OrcEv
  | droppedEv (tid : Nat)
  | parsedEv (tid : Nat)
  | blockEv (tid : Nat)
  | finishedEv (tid : Nat)
deriving DecidableEq, Repr

def OrcEv.tid : OrcEv → Nat
  | .droppedEv i => i
  | .parsedEv i => i
  | .blockEv i => i
  | .finishedEv i => i

/-- Pass events are the observable work of a pass (parse, block
resolution, completion); a suppressed call emits only its drop. -/
def OrcEv.isPass : OrcEv → Bool
  | .droppedEv _ => false
  | _ => true

structure OrcSys where
  shared : PMState
  tasks : List TaskPhase
deriving DecidableEq, Repr

def orcStep (hashFn : List Char → String) (engine : List Char → EngineOutcome)
    (post : String → Bool → String) (darkMode : Bool) (now : Nat)
    (i : Nat) (sys : OrcSys) : OrcSys × List OrcEv :=
  match sys.tasks.get? i with
  | none => (sys, [])
  | some ph =>
    match ph with
    | .idle doc =>
        if sys.shared.isRendering then
          (⟨sys.shared, sys.tasks.set i .dropped⟩, [.droppedEv i])
        else if (docBlocks hashFn doc).isEmpty then
          (⟨sys.shared, sys.tasks.set i .finished⟩, [.parsedEv i])
        else
          (⟨⟨sys.shared.svgCache, sys.shared.store, true⟩,
            sys.tasks.set i (.looping (docBlocks hashFn doc))⟩,
            [.parsedEv i])
    | .looping [] =>
        (⟨⟨sys.shared.svgCache, sys.shared.store, false⟩,
          sys.tasks.set i .finished⟩, [.finishedEv i])
    | .looping (b :: bs) =>
        (⟨(processOneBlock engine post darkMode now b sys.shared).1,
          sys.tasks.set i (.looping bs)⟩, [.blockEv i])
    | .finished => (sys, [])
    | .dropped => (sys, [])

def orcRunAcc (hashFn : List Char → String)
    (engine : List Char → EngineOutcome) (post : String → Bool → String)
    (darkMode : Bool) (now : Nat) :
    List Nat → OrcSys → List OrcEv → OrcSys × List OrcEv
  | [], sys, acc => (sys, acc)
  | i :: rest, sys, acc =>
      orcRunAcc hashFn engine post darkMode now rest
        (orcStep hashFn engine post darkMode now i sys).1
        (acc ++ (orcStep hashFn engine post darkMode now i sys).2)

def orcRun (hashFn : List Char → String)
    (engine : List Char → EngineOutcome) (post : String → Bool → String)
    (darkMode : Bool) (now : Nat) (sched : List Nat) (docs : List (List Char)) :
    OrcSys × List OrcEv :=
  orcRunAcc hashFn engine post darkMode now sched
    ⟨PMState.empty, docs.map TaskPhase.idle⟩ []

def passAt (tr : List OrcEv) (p : Nat) (i : Nat) : Prop :=
  ∃ e, tr.get? p = some e ∧ e.isPass = true ∧ e.tid = i

/-- No two orchestration passes interleave: the trace never shows a pass
event of task i, then one of another task j, then one of i again. -/
def NoInterleave (tr : List OrcEv) : Prop :=
  ∀ i j p q r, i ≠ j → p < q → q < r →
    passAt tr p i → passAt tr q j → passAt tr r i → False

/-- The inductive invariant tying task phases to the event trace. -/
def OrcInv (sys : OrcSys) (tr : List OrcEv) : Prop :=
  (∀ i doc, sys.tasks.get? i = some (.idle doc) →
     ∀ p e, tr.get? p = some e → e.tid ≠ i) ∧
  (∀ i, sys.tasks.get? i = some .dropped →
     tr.filter (fun e => decide (e.tid = i)) = [.droppedEv i]) ∧
  (∀ i bs, sys.tasks.get? i = some (.looping bs) →
     sys.shared.isRendering = true ∧
     ∃ p0, tr.get? p0 = some (.parsedEv i) ∧
       (∀ q e, tr.get? q = some e → e.tid = i → p0 ≤ q) ∧
       (∀ q e, tr.get? q = some e → p0 ≤ q → e.isPass = true → e.tid = i)) ∧
  NoInterleave tr

theorem set_get?_ne {ts : List TaskPhase} {i j : Nat} {ph : TaskPhase}
    (h : j ≠ i) : (ts.set i ph).get? j = ts.get? j := by
  induction ts generalizing i j with
  | nil => rfl
  | cons a as ih =>
    cases i with
    | zero =>
      cases j with
      | zero => exact absurd rfl h
      | succ j2 => rfl
    | succ i2 =>
      cases j with
      | zero => rfl
      | succ j2 => exact ih fun he => h (congrArg Nat.succ he)

theorem set_get?_self {ts : List TaskPhase} {i : Nat} {ph old : TaskPhase}
    (h : ts.get? i = some old) : (ts.set i ph).get? i = some ph := by
  induction ts generalizing i with
  | nil => exact absurd h (by simp)
  | cons a as ih =>
    cases i with
    | zero => rfl
    | succ i2 => exact ih h

theorem passAt_append_elim {tr : List OrcEv} {e : OrcEv} {p x : Nat}
    (h : passAt (tr ++ [e]) p x) :
    passAt tr p x ∨ (p = tr.length ∧ e.isPass = true ∧ e.tid = x) := by
  obtain ⟨e2, he2, hpass, htid⟩ := h
  rcases get?_append_sing he2 with ⟨_, h3⟩ | ⟨hlen, h3⟩
  · exact Or.inl ⟨e2, h3, hpass, htid⟩
  · subst h3
    exact Or.inr ⟨hlen, hpass, htid⟩

theorem passAt_append_intro {tr : List OrcEv} (e : OrcEv) {p x : Nat}
    (h : passAt tr p x) : passAt (tr ++ [e]) p x := by
  obtain ⟨e2, he2, hpass, htid⟩ := h
  exact ⟨e2, get?_append_sing_left he2, hpass, htid⟩

theorem processOneBlock_isRendering (engine : List Char → EngineOutcome)
    (post : String → Bool → String) (darkMode : Bool) (now : Nat)
    (b : TikzBlock) (st : PMState) :
    (processOneBlock engine post darkMode now b st).1.isRendering =
      st.isRendering := by
  unfold processOneBlock
  by_cases hb : (memGet st.svgCache b.hash).isSome
  · simp [hb]
  · rw [if_neg hb]
    cases hcg : cacheGet st.store b.hash with
    | mk fst store2 =>
      cases fst with
      | some cached => rfl
      | none =>
        unfold renderSingleBlock
        cases engine (renderedSource b.source) <;> rfl

theorem no_events_filter_nil {tr : List OrcEv} {i : Nat}
    (h : ∀ p e, tr.get? p = some e → e.tid ≠ i) :
    tr.filter (fun e => decide (e.tid = i)) = [] := by
  induction tr with
  | nil => rfl
  | cons a as ih =>
    have ha := h 0 a rfl
    have htail : ∀ p e, as.get? p = some e → e.tid ≠ i :=
      fun p e hp => h (p + 1) e hp
    simp [List.filter_cons, ha, ih htail]

theorem noInterleave_append_nonpass {tr : List OrcEv} {e : OrcEv}
    (h : NoInterleave tr) (he : e.isPass = false) :
    NoInterleave (tr ++ [e]) := by
  intro i j p q r hij hpq hqr hp hq hr
  rcases passAt_append_elim hp with hp2 | ⟨_, hpass, _⟩
  · rcases passAt_append_elim hq with hq2 | ⟨_, hpass, _⟩
    · rcases passAt_append_elim hr with hr2 | ⟨_, hpass, _⟩
      · exact h i j p q r hij hpq hqr hp2 hq2 hr2
      · rw [he] at hpass; exact Bool.noConfusion hpass
    · rw [he] at hpass; exact Bool.noConfusion hpass
  · rw [he] at hpass; exact Bool.noConfusion hpass

theorem noInterleave_append_fresh {tr : List OrcEv} {e : OrcEv} {x : Nat}
    (h : NoInterleave tr) (hfresh : ∀ p, ¬ passAt tr p x)
    (htid : e.tid = x) : NoInterleave (tr ++ [e]) := by
  intro i j p q r hij hpq hqr hp hq hr
  rcases passAt_append_elim hr with hr2 | ⟨hrlen, _, hrtid⟩
  · have hrlt : r < tr.length := by
      obtain ⟨e2, he2, _, _⟩ := hr2
      exact get?_some_lt he2
    rcases passAt_append_elim hp with hp2 | ⟨hplen, _, _⟩
    · rcases passAt_append_elim hq with hq2 | ⟨hqlen, _, _⟩
      · exact h i j p q r hij hpq hqr hp2 hq2 hr2
      · omega
    · omega
  · have hix : i = x := by rw [← hrtid, htid]
    subst hix
    rcases passAt_append_elim hp with hp2 | ⟨hplen, _, _⟩
    · exact hfresh p hp2
    · omega

theorem noInterleave_append_suffix {tr : List OrcEv} {e : OrcEv}
    {x p0 : Nat} (h : NoInterleave tr) (htid : e.tid = x)
    (hmin : ∀ q e2, tr.get? q = some e2 → e2.tid = x → p0 ≤ q)
    (hsuf : ∀ q e2, tr.get? q = some e2 → p0 ≤ q → e2.isPass = true →
      e2.tid = x) : NoInterleave (tr ++ [e]) := by
  intro i j p q r hij hpq hqr hp hq hr
  rcases passAt_append_elim hr with hr2 | ⟨hrlen, _, hrtid⟩
  · have hrlt : r < tr.length := by
      obtain ⟨e2, he2, _, _⟩ := hr2
      exact get?_some_lt he2
    rcases passAt_append_elim hp with hp2 | ⟨hplen, _, _⟩
    · rcases passAt_append_elim hq with hq2 | ⟨hqlen, _, _⟩
      · exact h i j p q r hij hpq hqr hp2 hq2 hr2
      · omega
    · omega
  · have hix : i = x := by rw [← hrtid, htid]
    subst hix
    have hp2 : passAt tr p i := by
      rcases passAt_append_elim hp with hp2 | ⟨hplen, _, _⟩
      · exact hp2
      · omega
    have hq2 : passAt tr q j := by
      rcases passAt_append_elim hq with hq2 | ⟨hqlen, _, _⟩
      · exact hq2
      · omega
    obtain ⟨eq2, hqe, hqpass, hqtid⟩ := hq2
    have hqlt : q < p0 := by
      by_contra hge
      have := hsuf q eq2 hqe (Nat.le_of_not_lt hge) hqpass
      rw [hqtid] at this
      exact hij this.symm
    obtain ⟨ep2, hpe, _, hptid⟩ := hp2
    have := hmin p ep2 hpe hptid
    omega

theorem orcInv_init (docs : List (List Char)) :
    OrcInv ⟨PMState.empty, docs.map TaskPhase.idle⟩ [] := by
  refine ⟨?_, ?_, ?_, ?_⟩
  · intro i doc _ p e hpe
    exact absurd hpe (by simp)
  · intro i h
    rw [List.get?_map] at h
    cases hdoc : docs.get? i with
    | none => rw [hdoc] at h; exact absurd h (by simp)
    | some d => rw [hdoc] at h; exact absurd h (by simp)
  · intro i bs h
    rw [List.get?_map] at h
    cases hdoc : docs.get? i with
    | none => rw [hdoc] at h; exact absurd h (by simp)
    | some d => rw [hdoc] at h; exact absurd h (by simp)
  · intro i j p q r _ _ _ hp _ _
    obtain ⟨e, hpe, _⟩ := hp
    exact absurd hpe (by simp)

theorem orcInv_unique_looping {sys : OrcSys} {tr : List OrcEv}
    (inv : OrcInv sys tr) {i j : Nat} {bs bs2 : List TikzBlock}
    (hi : sys.tasks.get? i = some (.looping bs))
    (hj : sys.tasks.get? j = some (.looping bs2)) : i = j := by
  obtain ⟨_, _, h3, _⟩ := inv
  obtain ⟨_, pi, hpi, _, hsufi⟩ := h3 i bs hi
  obtain ⟨_, pj, hpj, _, hsufj⟩ := h3 j bs2 hj
  rcases Nat.le_total pi pj with hle | hle
  · exact (hsufi pj _ hpj hle rfl).symm
  · exact hsufj pi _ hpi hle rfl

theorem getElem?_of_get? {α : Type} {l : List α} {i : Nat} {a : α}
    (h : l.get? i = some a) : l[i]? = some a := by
  rw [← List.get?_eq_getElem?]
  exact h

theorem orcInv_step (hashFn : List Char → String)
    (engine : List Char → EngineOutcome) (post : String → Bool → String)
    (darkMode : Bool) (now : Nat) (i : Nat) (sys : OrcSys) (tr : List OrcEv)
    (inv : OrcInv sys tr) :
    OrcInv (orcStep hashFn engine post darkMode now i sys).1
      (tr ++ (orcStep hashFn engine post darkMode now i sys).2) := by
  obtain ⟨q1, q2, q3, q4⟩ := inv
  cases hti : sys.tasks.get? i with
  | none =>
    have hstep : orcStep hashFn engine post darkMode now i sys = (sys, []) := by
      unfold orcStep; rw [hti]
    rw [hstep, List.append_nil]
    exact ⟨q1, q2, q3, q4⟩
  | some ph =>
    cases ph with
    | finished =>
      have hstep : orcStep hashFn engine post darkMode now i sys =
          (sys, []) := by
        unfold orcStep; rw [hti]
      rw [hstep, List.append_nil]
      exact ⟨q1, q2, q3, q4⟩
    | dropped =>
      have hstep : orcStep hashFn engine post darkMode now i sys =
          (sys, []) := by
        unfold orcStep; rw [hti]
      rw [hstep, List.append_nil]
      exact ⟨q1, q2, q3, q4⟩
    | idle doc =>
      by_cases hflag : sys.shared.isRendering = true
      · have hstep : orcStep hashFn engine post darkMode now i sys =
            (⟨sys.shared, sys.tasks.set i .dropped⟩, [.droppedEv i]) := by
          simp [orcStep, getElem?_of_get? hti, hflag]
        rw [hstep]
        refine ⟨?_, ?_, ?_, ?_⟩
        · intro j doc2 hj p e hpe
          have hij : j ≠ i := by
            intro he
            subst he
            rw [set_get?_self hti] at hj
            exact absurd hj (by simp)
          rw [set_get?_ne hij] at hj
          rcases get?_append_sing hpe with ⟨_, hpe2⟩ | ⟨_, he⟩
          · exact q1 j doc2 hj p e hpe2
          · subst he
            simp [OrcEv.tid]
            exact fun hh => hij hh.symm
        · intro j hj
          by_cases hij : j = i
          · subst hij
            rw [List.filter_append,
              no_events_filter_nil (fun p e hpe => q1 j doc hti p e hpe)]
            simp [OrcEv.tid]
          · rw [set_get?_ne hij] at hj
            rw [List.filter_append, q2 j hj]
            simp [OrcEv.tid, Ne.symm hij]
        · intro j bs hj
          have hij : j ≠ i := by
            intro he
            subst he
            rw [set_get?_self hti] at hj
            exact absurd hj (by simp)
          rw [set_get?_ne hij] at hj
          obtain ⟨hflagj, p0, hp0, hmin, hsuf⟩ := q3 j bs hj
          refine ⟨hflagj, p0, get?_append_sing_left hp0, ?_, ?_⟩
          · intro q e hqe htid
            rcases get?_append_sing hqe with ⟨_, hq2⟩ | ⟨_, he⟩
            · exact hmin q e hq2 htid
            · subst he
              simp [OrcEv.tid] at htid
              exact absurd htid.symm hij
          · intro q e hqe hge hpass
            rcases get?_append_sing hqe with ⟨_, hq2⟩ | ⟨_, he⟩
            · exact hsuf q e hq2 hge hpass
            · subst he
              exact absurd hpass (by simp [OrcEv.isPass])
        · exact noInterleave_append_nonpass q4 rfl
      · have hflagf : sys.shared.isRendering = false := by
          revert hflag
          cases sys.shared.isRendering <;> simp
        have hnoloop : ∀ j bs, sys.tasks.get? j = some (.looping bs) →
            False := by
          intro j bs hj
          obtain ⟨hflagj, _⟩ := q3 j bs hj
          rw [hflagf] at hflagj
          exact Bool.noConfusion hflagj
        have hfresh : ∀ p, ¬ passAt tr p i := by
          intro p hp
          obtain ⟨e, hpe, _, htid⟩ := hp
          exact q1 i doc hti p e hpe htid
        by_cases hbe : (docBlocks hashFn doc).isEmpty = true
        · have hstep : orcStep hashFn engine post darkMode now i sys =
              (⟨sys.shared, sys.tasks.set i .finished⟩, [.parsedEv i]) := by
            simp [orcStep, getElem?_of_get? hti, hflagf, hbe]
          rw [hstep]
          refine ⟨?_, ?_, ?_, ?_⟩
          · intro j doc2 hj p e hpe
            have hij : j ≠ i := by
              intro he
              subst he
              rw [set_get?_self hti] at hj
              exact absurd hj (by simp)
            rw [set_get?_ne hij] at hj
            rcases get?_append_sing hpe with ⟨_, hpe2⟩ | ⟨_, he⟩
            · exact q1 j doc2 hj p e hpe2
            · subst he
              simp [OrcEv.tid]
              exact fun hh => hij hh.symm
          · intro j hj
            have hij : j ≠ i := by
              intro he
              subst he
              rw [set_get?_self hti] at hj
              exact absurd hj (by simp)
            rw [set_get?_ne hij] at hj
            rw [List.filter_append, q2 j hj]
            simp [OrcEv.tid, Ne.symm hij]
          · intro j bs hj
            have hij : j ≠ i := by
              intro he
              subst he
              rw [set_get?_self hti] at hj
              exact absurd hj (by simp)
            rw [set_get?_ne hij] at hj
            exact absurd hj (fun h => hnoloop j bs h)
          · exact noInterleave_append_fresh q4 hfresh rfl
        · have hbef : (docBlocks hashFn doc).isEmpty = false := by
            revert hbe
            cases (docBlocks hashFn doc).isEmpty <;> simp
          have hstep : orcStep hashFn engine post darkMode now i sys =
              (⟨⟨sys.shared.svgCache, sys.shared.store, true⟩,
                sys.tasks.set i (.looping (docBlocks hashFn doc))⟩,
               [.parsedEv i]) := by
            simp [orcStep, getElem?_of_get? hti, hflagf, hbef]
          rw [hstep]
          refine ⟨?_, ?_, ?_, ?_⟩
          · intro j doc2 hj p e hpe
            have hij : j ≠ i := by
              intro he
              subst he
              rw [set_get?_self hti] at hj
              exact absurd hj (by simp)
            rw [set_get?_ne hij] at hj
            rcases get?_append_sing hpe with ⟨_, hpe2⟩ | ⟨_, he⟩
            · exact q1 j doc2 hj p e hpe2
            · subst he
              simp [OrcEv.tid]
              exact fun hh => hij hh.symm
          · intro j hj
            have hij : j ≠ i := by
              intro he
              subst he
              rw [set_get?_self hti] at hj
              exact absurd hj (by simp)
            rw [set_get?_ne hij] at hj
            rw [List.filter_append, q2 j hj]
            simp [OrcEv.tid, Ne.symm hij]
          · intro j bs hj
            by_cases hij : j = i
            · subst hij
              refine ⟨rfl, tr.length, List.get?_concat_length tr _, ?_, ?_⟩
              · intro q e hqe htid
                rcases get?_append_sing hqe with ⟨_, hq2⟩ | ⟨hlen, _⟩
                · exact absurd htid (q1 j doc hti q e hq2)
                · omega
              · intro q e hqe hge hpass
                rcases get?_append_sing hqe with ⟨hlt, _⟩ | ⟨_, he⟩
                · omega
                · subst he
                  rfl
            · rw [set_get?_ne hij] at hj
              exact absurd hj (fun h => hnoloop j bs h)
          · exact noInterleave_append_fresh q4 hfresh rfl
    | looping blocks =>
      cases blocks with
      | nil =>
        obtain ⟨hflagi, p0, hp0, hmin, hsuf⟩ := q3 i [] hti
        have hstep : orcStep hashFn engine post darkMode now i sys =
            (⟨⟨sys.shared.svgCache, sys.shared.store, false⟩,
              sys.tasks.set i .finished⟩, [.finishedEv i]) := by
          simp [orcStep, getElem?_of_get? hti]
        rw [hstep]
        refine ⟨?_, ?_, ?_, ?_⟩
        · intro j doc2 hj p e hpe
          have hij : j ≠ i := by
            intro he
            subst he
            rw [set_get?_self hti] at hj
            exact absurd hj (by simp)
          rw [set_get?_ne hij] at hj
          rcases get?_append_sing hpe with ⟨_, hpe2⟩ | ⟨_, he⟩
          · exact q1 j doc2 hj p e hpe2
          · subst he
            simp [OrcEv.tid]
            exact fun hh => hij hh.symm
        · intro j hj
          have hij : j ≠ i := by
            intro he
            subst he
            rw [set_get?_self hti] at hj
            exact absurd hj (by simp)
          rw [set_get?_ne hij] at hj
          rw [List.filter_append, q2 j hj]
          simp [OrcEv.tid, Ne.symm hij]
        · intro j bs hj
          have hij : j ≠ i := by
            intro he
            subst he
            rw [set_get?_self hti] at hj
            exact absurd hj (by simp)
          rw [set_get?_ne hij] at hj
          exact absurd (orcInv_unique_looping ⟨q1, q2, q3, q4⟩ hj hti) hij
        · exact noInterleave_append_suffix q4 rfl hmin hsuf
      | cons b bs2 =>
        obtain ⟨hflagi, p0, hp0, hmin, hsuf⟩ := q3 i (b :: bs2) hti
        have hstep : orcStep hashFn engine post darkMode now i sys =
            (⟨(processOneBlock engine post darkMode now b sys.shared).1,
              sys.tasks.set i (.looping bs2)⟩, [.blockEv i]) := by
          simp [orcStep, getElem?_of_get? hti]
        rw [hstep]
        refine ⟨?_, ?_, ?_, ?_⟩
        · intro j doc2 hj p e hpe
          have hij : j ≠ i := by
            intro he
            subst he
            rw [set_get?_self hti] at hj
            exact absurd hj (by simp)
          rw [set_get?_ne hij] at hj
          rcases get?_append_sing hpe with ⟨_, hpe2⟩ | ⟨_, he⟩
          · exact q1 j doc2 hj p e hpe2
          · subst he
            simp [OrcEv.tid]
            exact fun hh => hij hh.symm
        · intro j hj
          have hij : j ≠ i := by
            intro he
            subst he
            rw [set_get?_self hti] at hj
            exact absurd hj (by simp)
          rw [set_get?_ne hij] at hj
          rw [List.filter_append, q2 j hj]
          simp [OrcEv.tid, Ne.symm hij]
        · intro j bs hj
          by_cases hij : j = i
          · subst hij
            refine ⟨?_, p0, get?_append_sing_left hp0, ?_, ?_⟩
            · rw [processOneBlock_isRendering]
              exact hflagi
            · intro q e hqe htid
              rcases get?_append_sing hqe with ⟨_, hq2⟩ | ⟨hlen, _⟩
              · exact hmin q e hq2 htid
              · have := get?_some_lt hp0
                omega
            · intro q e hqe hge hpass
              rcases get?_append_sing hqe with ⟨_, hq2⟩ | ⟨_, he⟩
              · exact hsuf q e hq2 hge hpass
              · subst he
                rfl
          · rw [set_get?_ne hij] at hj
            exact absurd (orcInv_unique_looping ⟨q1, q2, q3, q4⟩ hj hti) hij
        · exact noInterleave_append_suffix q4 rfl hmin hsuf

theorem orcInv_runAcc (hashFn : List Char → String)
    (engine : List Char → EngineOutcome) (post : String → Bool → String)
    (darkMode : Bool) (now : Nat) (sched : List Nat) (sys : OrcSys)
    (tr : List OrcEv) (inv : OrcInv sys tr) :
    OrcInv (orcRunAcc hashFn engine post darkMode now sched sys tr).1
      (orcRunAcc hashFn engine post darkMode now sched sys tr).2 := by
  induction sched generalizing sys tr with
  | nil => exact inv
  | cons i rest ih =>
    exact ih _ _ (orcInv_step hashFn engine post darkMode now i sys tr inv)

/-- C6: re-entrancy guard and mutual exclusion of orchestration passes.
(1) While a pass holds `_isRendering`, a concurrent `renderDocument`
call's first (and only) segment drops the call: the shared state is
untouched and the only trace event is its drop.  (2) Sequentially, a
call under the flag returns `(st, [])`: no parse, no engine call, no
cache write, no nudge.  (3) Over every interleaving of any number of
tasks from the initial system, a dropped call's entire contribution to
the trace is its single drop event (it is never queued and never runs
later), and pass events of two different passes never interleave. -/
theorem render_reentrancy_exclusion (hashFn : List Char → String)
    (engine : List Char → EngineOutcome) (post : String → Bool → String)
    (darkMode : Bool) (now : Nat) :
    (∀ (sys : OrcSys) (i : Nat) (doc : List Char),
       sys.tasks.get? i = some (.idle doc) →
       sys.shared.isRendering = true →
       orcStep hashFn engine post darkMode now i sys =
         (⟨sys.shared, sys.tasks.set i .dropped⟩, [.droppedEv i])) ∧
    (∀ (doc : List Char) (st : PMState), st.isRendering = true →
       renderDocument engine post darkMode now hashFn doc st = (st, [])) ∧
    (∀ (docs : List (List Char)) (sched : List Nat),
       (∀ i, (orcRun hashFn engine post darkMode now sched docs).1.tasks.get?
           i = some .dropped →
         ((orcRun hashFn engine post darkMode now sched docs).2.filter
           (fun e => decide (e.tid = i))) = [.droppedEv i]) ∧
       NoInterleave (orcRun hashFn engine post darkMode now sched docs).2) := by
  refine ⟨?_, ?_, ?_⟩
  · intro sys i doc hti hflag
    simp [orcStep, getElem?_of_get? hti, hflag]
  · intro doc st h
    simp [renderDocument, h]
  · intro docs sched
    have hinv := orcInv_runAcc hashFn engine post darkMode now sched
      ⟨PMState.empty, docs.map TaskPhase.idle⟩ [] (orcInv_init docs)
    obtain ⟨_, h2, _, h4⟩ := hinv
    exact ⟨fun i hi => h2 i hi, h4⟩

/-! ### C9 — extraction order and fence recognition -/

theorem tryCloseAt_some {t : List Char} {q e : Nat}
    (h : tryCloseAt t q = some e) : q + 3 ≤ e := by
  unfold tryCloseAt at h
  by_cases hc : (lineStartAt t q && charsAt t q ("```".data)) = true
  · rw [if_pos hc] at h
    cases hb : largestBoundary t (q + 3)
        (((t.drop (q + 3)).takeWhile jsWs).length) with
    | none => rw [hb] at h; simp at h
    | some v =>
      rw [hb] at h
      have h2 : q + 3 + v = e := by injection h
      omega
  · rw [if_neg hc] at h
    exact Option.noConfusion h

theorem tryOpenAt_some {t : List Char} {p c0 : Nat}
    (h : tryOpenAt t p = some c0) : p + 7 ≤ c0 := by
  unfold tryOpenAt at h
  by_cases hc : (lineStartAt t p && charsAt t p ("```".data) &&
      ciTikzAt t (p + 3)) = true
  · rw [if_pos hc] at h
    cases hb : largestBoundary t (p + 7)
        (((t.drop (p + 7)).takeWhile jsWs).length) with
    | none => rw [hb] at h; simp at h
    | some w =>
      rw [hb] at h
      have h2 : p + 7 + w = c0 := by injection h
      omega
  · rw [if_neg hc] at h
    exact Option.noConfusion h

theorem findClose_some (t : List Char) (fuel : Nat) :
    ∀ q q2 e, findClose t q fuel = some (q2, e) → q ≤ q2 ∧ q2 + 3 ≤ e := by
  induction fuel with
  | zero =>
    intro q q2 e h
    exact Option.noConfusion h
  | succ f ih =>
    intro q q2 e h
    unfold findClose at h
    cases hc : tryCloseAt t q with
    | some e2 =>
      rw [hc] at h
      have h2 : (q, e2) = (q2, e) := by injection h
      have hq : q = q2 := congrArg Prod.fst h2
      have he : e2 = e := congrArg Prod.snd h2
      subst hq
      subst he
      exact ⟨Nat.le_refl _, tryCloseAt_some hc⟩
    | none =>
      rw [hc] at h
      obtain ⟨h1, h2⟩ := ih (q + 1) q2 e h
      exact ⟨by omega, h2⟩

theorem findOpen_some (t : List Char) (fuel : Nat) :
    ∀ p c0 q e, findOpen t p fuel = some (c0, q, e) →
      p ≤ c0 ∧ c0 ≤ q ∧ q + 3 ≤ e := by
  induction fuel with
  | zero =>
    intro p c0 q e h
    exact Option.noConfusion h
  | succ f ih =>
    intro p c0 q e h
    unfold findOpen at h
    cases ho : tryOpenAt t p with
    | none =>
      rw [ho] at h
      obtain ⟨h1, h2, h3⟩ := ih (p + 1) c0 q e h
      exact ⟨by omega, h2, h3⟩
    | some c1 =>
      rw [ho] at h
      have h' : (match findClose t c1 (t.length + 1 - c1) with
          | some (q, e) => some (c1, q, e)
          | none => findOpen t (p + 1) f) = some (c0, q, e) := h
      cases hfc : findClose t c1 (t.length + 1 - c1) with
      | none =>
        rw [hfc] at h'
        obtain ⟨h1, h2, h3⟩ := ih (p + 1) c0 q e h'
        exact ⟨by omega, h2, h3⟩
      | some pr =>
        obtain ⟨q1, e1⟩ := pr
        rw [hfc] at h'
        have h2 : (c1, q1, e1) = (c0, q, e) := by injection h' 
        have hc0 : c1 = c0 := congrArg Prod.fst h2
        have h3 : (q1, e1) = (q, e) := congrArg Prod.snd h2
        have hq : q1 = q := congrArg Prod.fst h3
        have he : e1 = e := congrArg Prod.snd h3
        subst hc0
        subst hq
        subst he
        obtain ⟨hcq, hqe⟩ := findClose_some t (t.length + 1 - c1) c1 q1 e1 hfc
        have hpo := tryOpenAt_some ho
        exact ⟨by omega, hcq, hqe⟩

theorem execLoop_lb (t : List Char) (fuel : Nat) :
    ∀ li pr, pr ∈ execLoop t li fuel → li ≤ pr.1 := by
  induction fuel with
  | zero =>
    intro li pr h
    simp [execLoop] at h
  | succ f ih =>
    intro li pr h
    unfold execLoop at h
    cases hfo : findOpen t li (t.length + 1 - li) with
    | none =>
      rw [hfo] at h
      simp at h
    | some tri =>
      obtain ⟨c0, q, e⟩ := tri
      rw [hfo] at h
      obtain ⟨hlc, hcq, hqe⟩ := findOpen_some t (t.length + 1 - li) li c0 q e hfo
      have h2 : pr ∈ (c0, (t.drop c0).take (q - c0)) :: execLoop t e f := h
      rcases List.mem_cons.mp h2 with hh | hh
      · subst hh
        exact hlc
      · have := ih e pr hh
        omega

theorem execLoop_pairwise (t : List Char) (fuel : Nat) :
    ∀ li, List.Pairwise (fun a b => a.1 < b.1) (execLoop t li fuel) := by
  induction fuel with
  | zero =>
    intro li
    exact List.Pairwise.nil
  | succ f ih =>
    intro li
    cases hfo : findOpen t li (t.length + 1 - li) with
    | none =>
      have hstep : execLoop t li (f + 1) = [] := by
        unfold execLoop
        rw [hfo]
      rw [hstep]
      exact List.Pairwise.nil
    | some tri =>
      obtain ⟨c0, q, e⟩ := tri
      obtain ⟨hlc, hcq, hqe⟩ := findOpen_some t (t.length + 1 - li) li c0 q e hfo
      have hstep : execLoop t li (f + 1) =
          (c0, (t.drop c0).take (q - c0)) :: execLoop t e f := by
        conv_lhs => rw [execLoop]
        rw [hfo]
      rw [hstep]
      refine List.Pairwise.cons ?_ (ih e)
      intro b hb
      have := execLoop_lb t f e b hb
      show c0 < b.1
      omega

/-- Any four characters lower-casing to `tikz` (the `i` flag) followed by
one non-terminator whitespace character (the trailing `\s*`) open a fence:
the block is recognised and its captured source is the body. -/
theorem parse_tag_ci_trailing_ws (c1 c2 c3 c4 w : Char)
    (h1 : c1.toLower = 't') (h2 : c2.toLower = 'i') (h3 : c3.toLower = 'k')
    (h4 : c4.toLower = 'z') (hw : jsWs w = true)
    (hwl : isLineTerm w = false) :
    parseDocument ('`' :: '`' :: '`' :: c1 :: c2 :: c3 :: c4 :: w :: '\n' :: 'x' :: '\n' :: '`' :: '`' :: '`' :: ([] : List Char)) = [(8, ['\n', 'x', '\n'])] := by
  have hci : ciTikzAt ('`' :: '`' :: '`' :: c1 :: c2 :: c3 :: c4 :: w :: '\n' :: 'x' :: '\n' :: '`' :: '`' :: '`' :: ([] : List Char)) (0 + 3) = true := by
    show (decide (c1.toLower = 't') && decide (c2.toLower = 'i') &&
        decide (c3.toLower = 'k') && decide (c4.toLower = 'z')) = true
    rw [h1, h2, h3, h4]
    decide
  have hls : lineStartAt ('`' :: '`' :: '`' :: c1 :: c2 :: c3 :: c4 :: w :: '\n' :: 'x' :: '\n' :: '`' :: '`' :: '`' :: ([] : List Char)) 0 = true := rfl
  have hch : charsAt ('`' :: '`' :: '`' :: c1 :: c2 :: c3 :: c4 :: w :: '\n' :: 'x' :: '\n' :: '`' :: '`' :: '`' :: ([] : List Char)) 0 ("```".data) = true := rfl
  have hcond : (lineStartAt ('`' :: '`' :: '`' :: c1 :: c2 :: c3 :: c4 :: w :: '\n' :: 'x' :: '\n' :: '`' :: '`' :: '`' :: ([] : List Char)) 0 && charsAt ('`' :: '`' :: '`' :: c1 :: c2 :: c3 :: c4 :: w :: '\n' :: 'x' :: '\n' :: '`' :: '`' :: '`' :: ([] : List Char)) 0 ("```".data) &&
      ciTikzAt ('`' :: '`' :: '`' :: c1 :: c2 :: c3 :: c4 :: w :: '\n' :: 'x' :: '\n' :: '`' :: '`' :: '`' :: ([] : List Char)) (0 + 3)) = true := by
    rw [hls, hch, hci]
    rfl
  have hrun : ((('`' :: '`' :: '`' :: c1 :: c2 :: c3 :: c4 :: w :: '\n' :: 'x' :: '\n' :: '`' :: '`' :: '`' :: ([] : List Char)).drop (0 + 7)).takeWhile jsWs).length = 2 := by
    show ((w :: '\n' :: 'x' :: '`' :: '`' :: '`' ::
        ([] : List Char)).takeWhile jsWs).length = 2
    rw [List.takeWhile_cons, hw]
    rfl
  have hlb : largestBoundary ('`' :: '`' :: '`' :: c1 :: c2 :: c3 :: c4 :: w :: '\n' :: 'x' :: '\n' :: '`' :: '`' :: '`' :: ([] : List Char)) (0 + 7) 2 = some 1 := rfl
  have hopen : tryOpenAt ('`' :: '`' :: '`' :: c1 :: c2 :: c3 :: c4 :: w :: '\n' :: 'x' :: '\n' :: '`' :: '`' :: '`' :: ([] : List Char)) 0 = some 8 := by
    show (if lineStartAt ('`' :: '`' :: '`' :: c1 :: c2 :: c3 :: c4 :: w :: '\n' :: 'x' :: '\n' :: '`' :: '`' :: '`' :: ([] : List Char)) 0 && charsAt ('`' :: '`' :: '`' :: c1 :: c2 :: c3 :: c4 :: w :: '\n' :: 'x' :: '\n' :: '`' :: '`' :: '`' :: ([] : List Char)) 0 ("```".data) &&
        ciTikzAt ('`' :: '`' :: '`' :: c1 :: c2 :: c3 :: c4 :: w :: '\n' :: 'x' :: '\n' :: '`' :: '`' :: '`' :: ([] : List Char)) (0 + 3) then
        match largestBoundary ('`' :: '`' :: '`' :: c1 :: c2 :: c3 :: c4 :: w :: '\n' :: 'x' :: '\n' :: '`' :: '`' :: '`' :: ([] : List Char)) (0 + 7)
            (((('`' :: '`' :: '`' :: c1 :: c2 :: c3 :: c4 :: w :: '\n' :: 'x' :: '\n' :: '`' :: '`' :: '`' :: ([] : List Char)).drop (0 + 7)).takeWhile jsWs).length) with
        | some w2 => some (0 + 7 + w2)
        | none => none
      else none) = some 8
    rw [hcond, hrun, hlb]
    rfl
  have hls8 : lineStartAt ('`' :: '`' :: '`' :: c1 :: c2 :: c3 :: c4 :: w :: '\n' :: 'x' :: '\n' :: '`' :: '`' :: '`' :: ([] : List Char)) 8 = false := by
    show (decide ((8 : Nat) = 0) || isLineTerm w) = false
    rw [hwl]
    rfl
  have htc8 : tryCloseAt ('`' :: '`' :: '`' :: c1 :: c2 :: c3 :: c4 :: w :: '\n' :: 'x' :: '\n' :: '`' :: '`' :: '`' :: ([] : List Char)) 8 = none := by
    show (if lineStartAt ('`' :: '`' :: '`' :: c1 :: c2 :: c3 :: c4 :: w :: '\n' :: 'x' :: '\n' :: '`' :: '`' :: '`' :: ([] : List Char)) 8 && charsAt ('`' :: '`' :: '`' :: c1 :: c2 :: c3 :: c4 :: w :: '\n' :: 'x' :: '\n' :: '`' :: '`' :: '`' :: ([] : List Char)) 8 ("```".data) then
        match largestBoundary ('`' :: '`' :: '`' :: c1 :: c2 :: c3 :: c4 :: w :: '\n' :: 'x' :: '\n' :: '`' :: '`' :: '`' :: ([] : List Char)) (8 + 3)
            (((('`' :: '`' :: '`' :: c1 :: c2 :: c3 :: c4 :: w :: '\n' :: 'x' :: '\n' :: '`' :: '`' :: '`' :: ([] : List Char)).drop (8 + 3)).takeWhile jsWs).length) with
        | some v => some (8 + 3 + v)
        | none => none
      else none) = none
    rw [hls8]
    rfl
  have hfc : findClose ('`' :: '`' :: '`' :: c1 :: c2 :: c3 :: c4 :: w :: '\n' :: 'x' :: '\n' :: '`' :: '`' :: '`' :: ([] : List Char)) 8 7 = some (11, 14) := by
    show (match tryCloseAt ('`' :: '`' :: '`' :: c1 :: c2 :: c3 :: c4 :: w :: '\n' :: 'x' :: '\n' :: '`' :: '`' :: '`' :: ([] : List Char)) 8 with
        | some e => some ((8 : Nat), e)
        | none => findClose ('`' :: '`' :: '`' :: c1 :: c2 :: c3 :: c4 :: w :: '\n' :: 'x' :: '\n' :: '`' :: '`' :: '`' :: ([] : List Char)) (8 + 1) 6) = some (11, 14)
    rw [htc8]
    rfl
  have hfo : findOpen ('`' :: '`' :: '`' :: c1 :: c2 :: c3 :: c4 :: w :: '\n' :: 'x' :: '\n' :: '`' :: '`' :: '`' :: ([] : List Char)) 0 15 = some (8, 11, 14) := by
    show (match tryOpenAt ('`' :: '`' :: '`' :: c1 :: c2 :: c3 :: c4 :: w :: '\n' :: 'x' :: '\n' :: '`' :: '`' :: '`' :: ([] : List Char)) 0 with
        | some c0 =>
          match findClose ('`' :: '`' :: '`' :: c1 :: c2 :: c3 :: c4 :: w :: '\n' :: 'x' :: '\n' :: '`' :: '`' :: '`' :: ([] : List Char)) c0 (('`' :: '`' :: '`' :: c1 :: c2 :: c3 :: c4 :: w :: '\n' :: 'x' :: '\n' :: '`' :: '`' :: '`' :: ([] : List Char)).length + 1 - c0) with
          | some (q, e) => some (c0, q, e)
          | none => findOpen ('`' :: '`' :: '`' :: c1 :: c2 :: c3 :: c4 :: w :: '\n' :: 'x' :: '\n' :: '`' :: '`' :: '`' :: ([] : List Char)) (0 + 1) 14
        | none => findOpen ('`' :: '`' :: '`' :: c1 :: c2 :: c3 :: c4 :: w :: '\n' :: 'x' :: '\n' :: '`' :: '`' :: '`' :: ([] : List Char)) (0 + 1) 14) = some (8, 11, 14)
    rw [hopen]
    show (match findClose ('`' :: '`' :: '`' :: c1 :: c2 :: c3 :: c4 :: w :: '\n' :: 'x' :: '\n' :: '`' :: '`' :: '`' :: ([] : List Char)) 8 (('`' :: '`' :: '`' :: c1 :: c2 :: c3 :: c4 :: w :: '\n' :: 'x' :: '\n' :: '`' :: '`' :: '`' :: ([] : List Char)).length + 1 - 8) with
        | some (q, e) => some ((8 : Nat), q, e)
        | none => findOpen ('`' :: '`' :: '`' :: c1 :: c2 :: c3 :: c4 :: w :: '\n' :: 'x' :: '\n' :: '`' :: '`' :: '`' :: ([] : List Char)) (0 + 1) 14) = some (8, 11, 14)
    have hfc2 : findClose ('`' :: '`' :: '`' :: c1 :: c2 :: c3 :: c4 :: w :: '\n' :: 'x' :: '\n' :: '`' :: '`' :: '`' :: ([] : List Char)) 8 (('`' :: '`' :: '`' :: c1 :: c2 :: c3 :: c4 :: w :: '\n' :: 'x' :: '\n' :: '`' :: '`' :: '`' :: ([] : List Char)).length + 1 - 8) = some (11, 14) := hfc
    rw [hfc2]
  have hexec : execLoop ('`' :: '`' :: '`' :: c1 :: c2 :: c3 :: c4 :: w :: '\n' :: 'x' :: '\n' :: '`' :: '`' :: '`' :: ([] : List Char)) 0 15 = [(8, ['\n', 'x', '\n'])] := by
    show (match findOpen ('`' :: '`' :: '`' :: c1 :: c2 :: c3 :: c4 :: w :: '\n' :: 'x' :: '\n' :: '`' :: '`' :: '`' :: ([] : List Char)) 0 (('`' :: '`' :: '`' :: c1 :: c2 :: c3 :: c4 :: w :: '\n' :: 'x' :: '\n' :: '`' :: '`' :: '`' :: ([] : List Char)).length + 1 - 0) with
        | some (c0, q, e) =>
            (c0, (('`' :: '`' :: '`' :: c1 :: c2 :: c3 :: c4 :: w :: '\n' :: 'x' :: '\n' :: '`' :: '`' :: '`' :: ([] : List Char)).drop c0).take (q - c0)) :: execLoop ('`' :: '`' :: '`' :: c1 :: c2 :: c3 :: c4 :: w :: '\n' :: 'x' :: '\n' :: '`' :: '`' :: '`' :: ([] : List Char)) e 14
        | none => []) = [(8, ['\n', 'x', '\n'])]
    have hfo2 : findOpen ('`' :: '`' :: '`' :: c1 :: c2 :: c3 :: c4 :: w :: '\n' :: 'x' :: '\n' :: '`' :: '`' :: '`' :: ([] : List Char)) 0 (('`' :: '`' :: '`' :: c1 :: c2 :: c3 :: c4 :: w :: '\n' :: 'x' :: '\n' :: '`' :: '`' :: '`' :: ([] : List Char)).length + 1 - 0) =
        some (8, 11, 14) := hfo
    rw [hfo2]
    rfl
  exact hexec

/-- C9 counterexample: whitespace on the fence line is NOT tolerated
around the tag — a space between the backticks and `tikz`, or before
the backticks, loses the block that the exact fence recognises. -/
theorem parse_ws_counterexample :
    parseDocument "``` tikz\nx\n```".data = [] ∧
    parseDocument " ```tikz\nx\n```".data = [] ∧
    parseDocument "```tikz\nx\n```".data = [(7, ['\n', 'x', '\n'])] := by
  decide

/-- C9 (amended): extraction is total and returns blocks in document
order (capture starts strictly increase); the fence is recognised when
the line starts exactly with three backticks immediately followed by the
tag `tikz` case-insensitively, and only whitespace AFTER the tag is
tolerated (greedy `\s*$`); empty and whitespace-only bodies still yield
a block, whose source is the newline left by the greedy `\s*`;
unterminated and tag-less fences yield nothing. -/
theorem parse_recognition_order :
    (∀ t : List Char,
      List.Pairwise (fun a b => a.1 < b.1) (parseDocument t)) ∧
    (∀ c1 c2 c3 c4 w : Char, c1.toLower = 't' → c2.toLower = 'i' →
      c3.toLower = 'k' → c4.toLower = 'z' → jsWs w = true →
      isLineTerm w = false →
      parseDocument ('`' :: '`' :: '`' :: c1 :: c2 :: c3 :: c4 :: w ::
        '\n' :: 'x' :: '\n' :: '`' :: '`' :: '`' :: ([] : List Char)) =
        [(8, ['\n', 'x', '\n'])]) ∧
    parseDocument "```TiKz \t \nx\n```".data = [(10, ['\n', 'x', '\n'])] ∧
    parseDocument "```tikz\n```".data = [(7, ['\n'])] ∧
    parseDocument "```tikz\n \t\n```".data = [(10, ['\n'])] ∧
    parseDocument "```tikz\nx\n".data = [] ∧
    parseDocument "```\nx\n```".data = [] :=
  ⟨fun t => execLoop_pairwise t (t.length + 1) 0,
   parse_tag_ci_trailing_ws,
   by decide, by decide, by decide, by decide, by decide⟩

end TikzSpec
